import Mathlib

/-!
Verification development for the SpeasyTTS text-to-audio pipeline.

The definitions below are a shallow embedding of the pipeline code in
`src/server/openai.ts` (segmenter `chunkText`, synthesizer wrapper
`generateSpeechChunk`, concatenator `combineAudioBuffers`, orchestrator
`generateSpeech`) and `src/server/audio-validation.ts` (validator
`validatePodcastAudio`, repairer `fixAudioIssues`).

Strings are modelled as `List Char`; JavaScript regular-expression
operations used by the segmenter are implemented character by character
with the exact matching semantics of the source regexes.  External
capabilities (the speech-synthesis API, the ffmpeg/ffprobe binaries, the
filesystem) are modelled as explicit oracles and an association-list
filesystem state, so that every function is executable.
-/

set_option maxRecDepth 100000

namespace Speasy

open List

/-! ## Character classes

`wsChar` models the JavaScript `\s` character class (and `String.trim`'s
notion of whitespace) restricted to the ASCII whitespace characters that
can occur in the pipeline's inputs.  `termChar` models the sentence
terminators `.`, `!`, `?` of the regexes in `chunkText`. -/

def wsChar (c : Char) : Bool :=
  c = ' ' || c = '\t' || c = '\n' || c = '\r' || c = '\x0b' || c = '\x0c'

def termChar (c : Char) : Bool :=
  c = '.' || c = '!' || c = '?'

/-- JavaScript `String.prototype.trim` (both ends). -/
def trimJS (l : List Char) : List Char :=
  (((l.dropWhile wsChar).reverse.dropWhile wsChar)).reverse

/-! ## `part.split(/\s+/)`

JavaScript `split` on a whitespace-run regex: pieces between maximal
whitespace runs, keeping the empty piece before a leading run and after a
trailing run (exactly V8's behaviour). -/

def splitWsF : List Char → List (List Char)
  | [] => [[]]
  | c :: t =>
    if wsChar c then
      match t with
      | [] => [[], []]
      | c' :: _ => if wsChar c' then splitWsF t else [] :: splitWsF t
    else
      match splitWsF t with
      | [] => [[c]]
      | p :: ps => (c :: p) :: ps

/-- The maximal whitespace-free runs of `l`, in order (the nonempty pieces
of `l.split(/\s+/)`). -/
def nonWsRuns (l : List Char) : List (List Char) :=
  (splitWsF l).filter (fun r => !r.isEmpty)

/-- Join a list of strings with a single space between consecutive
entries. -/
def joinSp : List (List Char) → List Char
  | [] => []
  | [c] => c
  | c :: cs => c ++ ' ' :: joinSp cs

/-- Whitespace normalization: trim both ends and collapse every whitespace
run to a single space.  Two strings are "equivalent aside from whitespace
normalization" when their `wsNorm`s are equal. -/
def wsNorm (l : List Char) : List Char :=
  joinSp (nonWsRuns l)

/-! ## `text.split(/\n\s*\n/)` (paragraph split)

A match of `\n\s*\n` is, inside a maximal whitespace run containing at
least two newline characters, the span from the run's first newline to its
last newline (leftmost match, greedy `\s*` with backtracking into the
final `\n`).  We first decompose the text into maximal runs of
whitespace / non-whitespace characters and then cut the qualifying
whitespace runs. -/

/-- Maximal runs of characters that agree on the predicate `p`, in order. -/
def runsByF (p : Char → Bool) : List Char → List (List Char)
  | [] => []
  | c :: t =>
    match runsByF p t with
    | [] => [[c]]
    | r :: rs =>
      match r with
      | [] => [c] :: rs
      | c' :: _ => if p c = p c' then (c :: r) :: rs else [c] :: r :: rs

/-- The part of a whitespace run before its first newline. -/
def paraPre (r : List Char) : List Char :=
  r.takeWhile (fun c => c ≠ '\n')

/-- The part of a whitespace run after its last newline. -/
def paraPost (r : List Char) : List Char :=
  ((r.dropWhile (fun c => c ≠ '\n')).reverse.takeWhile (fun c => c ≠ '\n')).reverse

/-- The matched `\n\s*\n` span of a qualifying whitespace run: from its
first newline to its last newline. -/
def paraMid (r : List Char) : List Char :=
  ((r.dropWhile (fun c => c ≠ '\n')).reverse.dropWhile (fun c => c ≠ '\n')).reverse

/-- Cut a run decomposition at every whitespace run containing at least two
newlines (the runs where `\n\s*\n` matches). -/
def paraPieces : List (List Char) → List (List Char)
  | [] => [[]]
  | r :: rs =>
    if r.all wsChar ∧ 2 ≤ r.count '\n' then
      match paraPieces rs with
      | [] => [paraPre r, paraPost r]
      | p :: ps => paraPre r :: (paraPost r ++ p) :: ps
    else
      match paraPieces rs with
      | [] => [r]
      | p :: ps => (r ++ p) :: ps

/-- JavaScript `text.split(/\n\s*\n/)`. -/
def splitPara (l : List Char) : List (List Char) :=
  paraPieces (runsByF wsChar l)

/-! ## `paragraph.match(/[^.!?]+[.!?]+/g) || [paragraph]` (sentence split)

Global matching alternates over the terminator/non-terminator runs of the
paragraph: each non-terminator run followed by a terminator run forms one
match; leading terminator runs and a trailing unterminated run are not
part of any match. -/

def sentMatches : List (List Char) → List (List Char)
  | [] => []
  | r :: rs =>
    if r.any termChar then sentMatches rs
    else
      match rs with
      | [] => []
      | t :: rs' => (r ++ t) :: sentMatches rs'

/-- The sentence list used by `chunkText` for an oversized paragraph. -/
def sentencesOf (p : List Char) : List (List Char) :=
  match sentMatches (runsByF termChar p) with
  | [] => [p]
  | m :: ms => m :: ms

/-! ## Clause split `/(?<=,|\sand\s|\sor\s|\sbut\s|\;)\s+/`

A split point is a maximal whitespace run starting at a position whose
immediately preceding text matches one of the lookbehind alternatives.
`lookbehindOk prev` receives the reversed prefix before the current
position. -/

def lookbehindOk : List Char → Bool
  | ',' :: _ => true
  | ';' :: _ => true
  | c2 :: 'd' :: 'n' :: 'a' :: c1 :: _ => wsChar c2 && wsChar c1
  | c2 :: 'r' :: 'o' :: c1 :: _ => wsChar c2 && wsChar c1
  | c2 :: 't' :: 'u' :: 'b' :: c1 :: _ => wsChar c2 && wsChar c1
  | _ => false

/-- Fuel-indexed scan for the clause split; `prev` is the reversed text
before the current position, `acc` the reversed current piece. -/
def clauseSplitAux : Nat → List Char → List Char → List Char → List (List Char)
  | 0, _, acc, l => [acc.reverse ++ l]
  | _ + 1, _, acc, [] => [acc.reverse]
  | fuel + 1, prev, acc, c :: t =>
    if wsChar c && lookbehindOk prev then
      acc.reverse ::
        clauseSplitAux fuel ((c :: t.takeWhile wsChar).reverse ++ prev) []
          (t.dropWhile wsChar)
    else
      clauseSplitAux fuel (c :: prev) (c :: acc) t

/-- JavaScript `trimmedSentence.split(/(?<=,|\sand\s|\sor\s|\sbut\s|\;)\s+/)`. -/
def clauseSplit (l : List Char) : List (List Char) :=
  clauseSplitAux (l.length + 1) [] [] l

/-! ## The segmenter `chunkText` (src/server/openai.ts, lines 610-677) -/

/-- The greedy word-accumulation loop over the words of an oversized
clause part (`chunkText`'s innermost loop). -/
def wordLoop : List Char → List (List Char) → List (List Char)
  | wordChunk, [] => if 100 ≤ wordChunk.length then [trimJS wordChunk] else []
  | wordChunk, w :: rest =>
    if (wordChunk ++ ' ' :: w).length ≤ 3800 then
      wordLoop (if wordChunk.isEmpty then w else wordChunk ++ ' ' :: w) rest
    else
      (if 100 ≤ wordChunk.length then [trimJS wordChunk] else []) ++ wordLoop w rest

/-- Chunks produced for one oversized sentence: clause parts that fit are
emitted as-is (trimmed); parts that are still oversized go through the
word-accumulation split. -/
def clauseChunks (t : List Char) : List (List Char) :=
  (clauseSplit t).flatMap fun part =>
    if part.length ≤ 3800 then [trimJS part] else wordLoop [] (splitWsF part)

/-- The sentence-accumulation loop of `chunkText` (`currentChunk` buffer).
An oversized sentence is routed to `clauseChunks` immediately, leaving the
accumulation buffer untouched; otherwise the trimmed sentence is appended
to the buffer when it fits, and the buffer (if at least 100 characters) is
flushed and restarted when it does not.  At end of input the buffer is
flushed only when it has at least 100 characters. -/
def sentLoop : List Char → List (List Char) → List (List Char)
  | cur, [] => if 100 ≤ cur.length then [trimJS cur] else []
  | cur, s :: rest =>
    let t := trimJS s
    if 3800 < t.length then
      clauseChunks t ++ sentLoop cur rest
    else if (cur ++ ' ' :: t).length ≤ 3800 then
      sentLoop (if cur.isEmpty then t else cur ++ ' ' :: t) rest
    else
      (if 100 ≤ cur.length then [trimJS cur] else []) ++ sentLoop t rest

/-- The segmenter (`chunkText`, src/server/openai.ts lines 610-677):
split into paragraphs, keep fitting paragraphs whole (trimmed), split
oversized paragraphs into sentences / clauses / words, and finally drop
every produced chunk shorter than 100 characters. -/
def chunkText (text : List Char) : List (List Char) :=
  ((splitPara text).flatMap fun p =>
      if (trimJS p).length = 0 then []
      else if p.length ≤ 3800 then [trimJS p]
      else sentLoop [] (sentencesOf p))
    |>.filter (fun c => 100 ≤ c.length)

/-! ## Filesystem and path model

The pipeline's effects on `/tmp` are modelled by an association list from
path strings to file records.  `fsErase` is a no-op on absent paths,
which models the source's `unlink(file).catch(() => {})` /
`try { await unlink(...) } catch {}` pattern: individual deletion
failures never escalate. -/

/-- The facts about an on-disk audio file that `ffprobe` reports: whether
an audio stream exists, its codec name, the container-level `bit_rate`
(bps; `none` models a missing/unparsable value, i.e. JavaScript `NaN`),
the stream `sample_rate` (Hz, `none` likewise), the duration in seconds,
and the container tag block. -/
structure ProbeData where
  hasAudioStream : Bool
  codecName : String
  bitRateBps : Option Nat
  sampleRate : Option Nat
  durationSec : Option Nat
  tags : List (String × String)
deriving DecidableEq, Repr

/-- One file of the scratch filesystem: its byte content, its `stat` size,
and the `ffprobe` result (`none` models a probe failure / corrupt file). -/
structure FileData where
  bytes : List Nat
  size : Nat
  probe : Option ProbeData
deriving DecidableEq, Repr

def Fs : Type := List (String × FileData)

def fsLookup (fs : Fs) (p : String) : Option FileData :=
  match fs.find? (fun e => e.1 = p) with
  | none => none
  | some e => some e.2

def fsErase (fs : Fs) (p : String) : Fs :=
  fs.filter (fun e => ¬ e.1 = p)

def fsInsert (fs : Fs) (p : String) (d : FileData) : Fs :=
  (p, d) :: fsErase fs p

/-- `path.basename`: the part after the last `/`. -/
def basenameJS (p : String) : String :=
  String.mk (p.toList.reverse.takeWhile (fun c => c ≠ '/')).reverse

/-- `path.dirname`: the part before the last `/` (`.` when there is no
separator). -/
def dirnameJS (p : String) : String :=
  let r := p.toList.reverse.dropWhile (fun c => c ≠ '/')
  match r with
  | [] => "."
  | _ :: r' => String.mk r'.reverse

/-- `path.join(dir, name)` for the shapes the pipeline uses. -/
def joinPath (d n : String) : String :=
  if d = "." then n else d ++ "/" ++ n

/-- `path.extname(p).toLowerCase().replace('.', '')`: the extension of the
basename, lowercased, without its dot (empty for no extension and for a
bare leading-dot file name, as in Node's `path.extname`). -/
def extOf (p : String) : String :=
  let b := (basenameJS p).toList
  match b.reverse.dropWhile (fun c => c ≠ '.') with
  | [] => ""
  | _ :: rest =>
    if rest.isEmpty then ""
    else String.mk ((b.reverse.takeWhile (fun c => c ≠ '.')).reverse.map Char.toLower)

/-! ## Validator (`validatePodcastAudio`, src/server/audio-validation.ts) -/

/-- The `AudioRequirements` configuration record. -/
structure AudioRequirements where
  maxFileSizeBytes : Nat
  minBitrate : Nat
  maxBitrate : Nat
  allowedSampleRates : List Nat
  allowedFormats : List String
deriving DecidableEq, Repr

/-- The module-level `defaultRequirements` object. -/
def defaultRequirements : AudioRequirements :=
  { maxFileSizeBytes := 200 * 1024 * 1024
    minBitrate := 64
    maxBitrate := 320
    allowedSampleRates := [44100, 48000]
    allowedFormats := ["mp3", "m4a"] }

/-- The error strings `validatePodcastAudio` pushes, one constructor per
`result.errors.push(...)` site, carrying the interpolated values. -/
inductive VError where
  | failedToAccess
  | fileSizeExceeds (sizeBytes maxBytes : Nat)
  | formatNotSupported (ext : String)
  | noAudioStream
  | failedToReadMetadata
  | bitrateBelowMin (bitrateKbps : ℚ) (minKbps : Nat)
  | bitrateAboveMax (bitrateKbps : ℚ) (maxKbps : Nat)
  | sampleRateNotSupported (rateHz : Option Nat)
deriving DecidableEq, Repr

/-- The warning strings `validatePodcastAudio` pushes. -/
inductive VWarning where
  | missingId3Tags
  | couldNotCheckId3Tags
deriving DecidableEq, Repr

/-- The `result.metadata` snapshot of a validation run.  `bitrate` is
`parseInt(format.bit_rate) / 1000` (a rational; `none` models
undefined/NaN), `sampleRate` is `parseInt(stream.sample_rate)`. -/
structure VMeta where
  format : Option String := none
  bitrate : Option ℚ := none
  sampleRate : Option Nat := none
  duration : Option Nat := none
  fileSize : Option Nat := none
  hasId3Tags : Option Bool := none
deriving DecidableEq, Repr

/-- The `AudioValidationResult` record. -/
structure AudioValidationResult where
  isValid : Bool
  errors : List VError
  warnings : List VWarning
  metadata : VMeta
deriving DecidableEq, Repr

/-- `validatePodcastAudio(filePath, requirements)`: file-size, extension,
probe, bitrate, sample-rate and ID3 checks, none short-circuiting the
others; a missing file aborts the whole `try` block with a single access
error; `isValid` is set at the end to `errors.length === 0`. -/
def validatePodcastAudio (fs : Fs) (filePath : String)
    (req : AudioRequirements := defaultRequirements) : AudioValidationResult :=
  match fsLookup fs filePath with
  | none =>
    { isValid := false, errors := [VError.failedToAccess], warnings := [],
      metadata := {} }
  | some fd =>
    let ext := extOf filePath
    let sizeErrs : List VError :=
      if req.maxFileSizeBytes < fd.size then
        [VError.fileSizeExceeds fd.size req.maxFileSizeBytes] else []
    let extErrs : List VError :=
      if ext ∈ req.allowedFormats then [] else [VError.formatNotSupported ext]
    let probeState :
        List VError × Option String × Option ℚ × Option Nat × Option Nat :=
      match fd.probe with
      | none => ([VError.failedToReadMetadata], none, none, none, none)
      | some pd =>
        if !pd.hasAudioStream then ([VError.noAudioStream], none, none, none, none)
        else
          let bitrate : Option ℚ :=
            match pd.bitRateBps with
            | some b => some ((b : ℚ) / 1000)
            | none => none
          let brErrs : List VError :=
            (match bitrate with
              | some b =>
                (if b < (req.minBitrate : ℚ) then
                  [VError.bitrateBelowMin b req.minBitrate] else []) ++
                (if (req.maxBitrate : ℚ) < b then
                  [VError.bitrateAboveMax b req.maxBitrate] else [])
              | none => [])
          let srErrs : List VError :=
            match pd.sampleRate with
            | some sr =>
              if sr ∈ req.allowedSampleRates then []
              else [VError.sampleRateNotSupported (some sr)]
            | none => [VError.sampleRateNotSupported none]
          (brErrs ++ srErrs, some pd.codecName, bitrate, pd.sampleRate,
            pd.durationSec)
      let errs := sizeErrs ++ extErrs ++ probeState.1
      let id3 : Option Bool × List VWarning :=
        if ext = "mp3" then
          match fd.probe with
          | none => (none, [VWarning.couldNotCheckId3Tags])
          | some pd =>
            if pd.tags.isEmpty then (some false, [VWarning.missingId3Tags])
            else (some true, [])
        else (none, [])
      { isValid := errs.isEmpty
        errors := errs
        warnings := id3.2
        metadata :=
          { format := probeState.2.1
            bitrate := probeState.2.2.1
            sampleRate := probeState.2.2.2.1
            duration := probeState.2.2.2.2
            fileSize := some fd.size
            hasId3Tags := id3.1 } }

/-! ## Repairer (`fixAudioIssues`, src/server/audio-validation.ts 119-154) -/

/-- The bitrate-fix condition of `fixAudioIssues`:
`validation.metadata.bitrate && (bitrate < 64 || bitrate > 320)`.
A measured value of `0` (or an absent one) is falsy in JavaScript, so it
disables the fix. -/
def needsBitrateFix (v : AudioValidationResult) : Bool :=
  match v.metadata.bitrate with
  | some b => ¬ b = 0 && (b < 64 || 320 < b)
  | none => false

/-- The sample-rate-fix condition of `fixAudioIssues`:
`validation.metadata.sampleRate && !defaultRequirements.allowedSampleRates.includes(...)`. -/
def needsSampleRateFix (v : AudioValidationResult) : Bool :=
  match v.metadata.sampleRate with
  | some sr => ¬ sr = 0 && ¬ sr ∈ defaultRequirements.allowedSampleRates
  | none => false

/-- The effect of the single `ffmpeg` re-encode pass built by
`fixAudioIssues`: the output keeps the input's probed facts except that a
forced `-b:a 128k` pins the bitrate and a forced `-ar 44100` pins the
sample rate; `-codec:a libmp3lame` makes the output an mp3 stream. -/
def ffmpegReencode (fd : FileData) (pd : ProbeData)
    (forceBitrateBps forceSampleRate : Option Nat) : FileData :=
  { bytes := fd.bytes
    size := fd.size
    probe := some
      { pd with
        codecName := "mp3"
        bitRateBps := match forceBitrateBps with | some b => some b | none => pd.bitRateBps
        sampleRate := match forceSampleRate with | some r => some r | none => pd.sampleRate } }

/-- `fixAudioIssues(filePath, validation)`: build one re-encode command
applying both fixes, run it only when at least one fix is needed, and
otherwise return the original path unchanged.  The external `execSync`
call fails (and the function throws) when the input file is missing or
unreadable by ffmpeg. -/
def fixAudioIssues (fs : Fs) (filePath : String) (validation : AudioValidationResult) :
    Fs × Except String String :=
  let outputPath := joinPath (dirnameJS filePath) ("fixed_" ++ basenameJS filePath)
  let bitFix := needsBitrateFix validation
  let srFix := needsSampleRateFix validation
  if bitFix || srFix then
    match fsLookup fs filePath with
    | none => (fs, Except.error "Failed to fix audio issues")
    | some fd =>
      match fd.probe with
      | none => (fs, Except.error "Failed to fix audio issues")
      | some pd =>
        (fsInsert fs outputPath
          (ffmpegReencode fd pd
            (if bitFix then some 128000 else none)
            (if srFix then some 44100 else none)),
          Except.ok outputPath)
  else (fs, Except.ok filePath)

/-! ## Synthesizer wrapper (`generateSpeechChunk`, src/server/openai.ts
lines 680-707) -/

/-- The typed failure reasons of `generateSpeechChunk`, one per `throw`
site. -/
inductive SynthError where
  | emptyChunk
  | chunkTooLong (len : Nat)
  | stringTooLong (len : Nat)
  | generationFailed (msg : String)
deriving DecidableEq, Repr

/-- JavaScript `String.prototype.includes`: does `pat` occur as a
contiguous subsequence of `l`? -/
def containsSub (pat : List Char) : List Char → Bool
  | [] => pat.isEmpty
  | c :: t => pat.isPrefixOf (c :: t) || containsSub pat t

/-- `generateSpeechChunk(text)`: reject an empty chunk and a chunk over
the hard 4096-character ceiling before issuing the outbound call; wrap
any error of the external synthesis capability (`synth`) into a synthesis
error.  The returned `Bool` records whether the outbound call was
issued. -/
def generateSpeechChunk (synth : List Char → Except String (List Nat))
    (text : List Char) : Bool × Except SynthError (List Nat) :=
  if text.length = 0 then (false, Except.error SynthError.emptyChunk)
  else if 4096 < text.length then
    (false, Except.error (SynthError.chunkTooLong text.length))
  else
    match synth text with
    | Except.ok buf => (true, Except.ok buf)
    | Except.error msg =>
      if containsSub "string_too_long".toList msg.toList then
        (true, Except.error (SynthError.stringTooLong text.length))
      else (true, Except.error (SynthError.generationFailed msg))

/-- The sequential per-chunk synthesis loop of `generateSpeech`; the first
failure aborts the run.  Returns the list of chunks for which
`generateSpeechChunk` was invoked, and either all buffers or the aborting
error. -/
def synthesizeAll (synth : List Char → Except String (List Nat)) :
    List (List Char) → List (List Char) × Except SynthError (List (List Nat))
  | [] => ([], Except.ok [])
  | c :: rest =>
    match generateSpeechChunk synth c with
    | (_, Except.error e) => ([c], Except.error e)
    | (_, Except.ok b) =>
      match synthesizeAll synth rest with
      | (calls, Except.error e) => (c :: calls, Except.error e)
      | (calls, Except.ok bufs) => (c :: calls, Except.ok (b :: bufs))

/-! ## Concatenator (`combineAudioBuffers`, src/server/openai.ts
lines 946-1027) -/

/-- `sanitizeTitle`: lowercase, strip characters outside `[\w\s-]`, turn
whitespace runs into `-`, collapse `-` runs, truncate to 100. -/
def sanitizeTitle (title : String) : String :=
  let isWordChar : Char → Bool := fun c =>
    ('a' ≤ c && c ≤ 'z') || ('A' ≤ c && c ≤ 'Z') || ('0' ≤ c && c ≤ '9') || c = '_'
  let kept := (title.toList.map Char.toLower).filter
    (fun c => isWordChar c || wsChar c || c = '-')
  let dashed := kept.map (fun c => if wsChar c then '-' else c)
  let collapsed := (runsByF (fun c => c = '-') dashed).flatMap
    (fun r => match r with
      | '-' :: _ => ['-']
      | other => other)
  String.mk (collapsed.take 100)

/-- `generatePodcastFilename(episodeNumber, title)`; the current date
string is passed explicitly. -/
def generatePodcastFilename (date : String) (episodeNumber : Nat) (title : String) :
    String :=
  date ++ "-episode-" ++ toString episodeNumber ++ "-" ++ sanitizeTitle title ++ ".mp3"

/-- The caller-supplied episode metadata accepted by `generateSpeech` and
`combineAudioBuffers`. -/
structure PodcastMeta where
  title : String
  episodeNumber : Nat
  description : Option String := none
  subtitle : Option String := none
deriving DecidableEq, Repr

/-- The scratch per-chunk file name `${sessionId}_${i}.mp3` under `/tmp`. -/
def chunkFileName (sessionId : String) (i : Nat) : String :=
  "/tmp/" ++ sessionId ++ "_" ++ toString i ++ ".mp3"

/-- The scratch concat list file `${sessionId}_list.txt` under `/tmp`. -/
def listFileName (sessionId : String) : String :=
  "/tmp/" ++ sessionId ++ "_list.txt"

/-- The combined output file under `/tmp`. -/
def outFileName (date : String) (meta : PodcastMeta) : String :=
  "/tmp/" ++ generatePodcastFilename date meta.episodeNumber meta.title

/-- A concatenation failure: the external ffmpeg process exited with a
non-zero code. -/
inductive ConcatError where
  | ffmpegExitedNonZero
deriving DecidableEq, Repr

/-- Best-effort removal of a list of scratch files (each
`unlink(...).catch(() => {})`). -/
def cleanupFiles (names : List String) (fs : Fs) : Fs :=
  names.foldl fsErase fs

/-- `combineAudioBuffers(audioBuffers, metadata)`: write every buffer to a
`${sessionId}_${i}.mp3` scratch file while appending to the concat list
file, run one ffmpeg stream-concat re-encode (`-b:a 128k -ar 44100`, ID3v2
metadata flags) into the output file, read the result back, and in a
`finally` block delete every scratch file (chunk files, list file, output
file) regardless of the outcome.  The external process is modelled by
`ffmpegOk` together with the structural failure when no list file was
written (zero buffers); `probeOf` models what ffprobe would report for
written bytes.  The produced byte stream is modelled as the concatenation
of the input buffers. -/
def combineAudioBuffers (fs : Fs) (sessionId date : String) (ffmpegOk : Bool)
    (probeOf : List Nat → Option ProbeData) (audioBuffers : List (List Nat))
    (meta : PodcastMeta) : Fs × Except ConcatError (List Nat) :=
  let inputFiles := (List.range audioBuffers.length).map (chunkFileName sessionId)
  let listFile := listFileName sessionId
  let outputFile := outFileName date meta
  let fs1 := (audioBuffers.enum).foldl
    (fun acc bi =>
      fsInsert acc (chunkFileName sessionId bi.1)
        { bytes := bi.2, size := bi.2.length, probe := probeOf bi.2 })
    fs
  let fs2 :=
    if audioBuffers.isEmpty then fs1
    else fsInsert fs1 listFile { bytes := [], size := 0, probe := none }
  if ffmpegOk && !audioBuffers.isEmpty then
    let outBytes := audioBuffers.flatten
    let fs3 := fsInsert fs2 outputFile
      { bytes := outBytes, size := outBytes.length, probe := probeOf outBytes }
    (cleanupFiles (inputFiles ++ [listFile, outputFile]) fs3, Except.ok outBytes)
  else
    (cleanupFiles (inputFiles ++ [listFile, outputFile]) fs2,
      Except.error ConcatError.ffmpegExitedNonZero)

/-! ## Orchestrator (`generateSpeech`) -/

/-- A pipeline-level failure: a per-chunk synthesis failure or a
concatenation failure (both abort the run). -/
inductive PipeError where
  | synthesis (e : SynthError)
  | concatenation (e : ConcatError)
deriving DecidableEq, Repr

/-- The observable outcome of one `generateSpeech` run: the final scratch
filesystem, the chunks for which the synthesizer wrapper was invoked,
whether the concatenation capability was invoked, and the result (the
artifact bytes with the validation report, or the aborting error). -/
structure PipelineRun where
  fs : Fs
  synthCalls : List (List Char)
  combineCalled : Bool
  result : Except PipeError (List Nat × AudioValidationResult)

/-- `generateSpeech(text, metadata)` (src/server/openai.ts lines
1030-1086): segment, synthesize sequentially, use the single buffer
directly when exactly one chunk exists or combine otherwise, then write
the artifact to a `temp_${uuid}.mp3` scratch file, validate it with the
default requirements, and delete the scratch file in a `finally` block. -/
def generateSpeech (synth : List Char → Except String (List Nat))
    (ffmpegOk : Bool) (probeOf : List Nat → Option ProbeData)
    (sessionId tempId date : String) (fs : Fs) (text : List Char)
    (meta : PodcastMeta) : PipelineRun :=
  let chunks := chunkText text
  match synthesizeAll synth chunks with
  | (calls, Except.error e) =>
    { fs := fs, synthCalls := calls, combineCalled := false,
      result := Except.error (PipeError.synthesis e) }
  | (calls, Except.ok audioBuffers) =>
    match audioBuffers with
    | [b] =>
      let tempFile := "/tmp/temp_" ++ tempId ++ ".mp3"
      let fs1 := fsInsert fs tempFile { bytes := b, size := b.length, probe := probeOf b }
      let validation := validatePodcastAudio fs1 tempFile
      { fs := fsErase fs1 tempFile, synthCalls := calls, combineCalled := false,
        result := Except.ok (b, validation) }
    | _ =>
      match combineAudioBuffers fs sessionId date ffmpegOk probeOf audioBuffers meta with
      | (fs1, Except.error e) =>
        { fs := fs1, synthCalls := calls, combineCalled := true,
          result := Except.error (PipeError.concatenation e) }
      | (fs1, Except.ok combined) =>
        let tempFile := "/tmp/temp_" ++ tempId ++ ".mp3"
        let fs2 := fsInsert fs1 tempFile
          { bytes := combined, size := combined.length, probe := probeOf combined }
        let validation := validatePodcastAudio fs2 tempFile
        { fs := fsErase fs2 tempFile, synthCalls := calls, combineCalled := true,
          result := Except.ok (combined, validation) }

/-- The validation-and-repair tail of the earlier `generateSpeech` variant
(src/server/openai.ts lines 552-597): validate the artifact scratch file;
if invalid, run `fixAudioIssues`; when the repairer produced a new path,
read the repaired bytes, delete the repaired file and the scratch file,
then re-run `validatePodcastAudio` on the repaired path and return that
second report as the definitive one; the `finally` block deletes the
scratch file (ignoring failures). -/
def generateSpeechRepairTail (fs : Fs) (tempFile : String)
    (combinedBuffer : List Nat) :
    Fs × Except String (List Nat × AudioValidationResult) :=
  let validation := validatePodcastAudio fs tempFile
  if ¬ validation.isValid then
    match fixAudioIssues fs tempFile validation with
    | (fs1, Except.error e) => (fsErase fs1 tempFile, Except.error e)
    | (fs1, Except.ok fixedPath) =>
      if ¬ fixedPath = tempFile then
        match fsLookup fs1 fixedPath with
        | none => (fsErase fs1 tempFile, Except.error "ENOENT")
        | some fixedFile =>
          let fs2 := fsErase fs1 fixedPath
          let fs3 := fsErase fs2 tempFile
          let fixedValidation := validatePodcastAudio fs3 fixedPath
          (fsErase fs3 tempFile, Except.ok (fixedFile.bytes, fixedValidation))
      else (fsErase fs1 tempFile, Except.ok (combinedBuffer, validation))
  else (fsErase fs tempFile, Except.ok (combinedBuffer, validation))

/-! ## Basic lemmas about the filesystem model -/

theorem fsLookup_erase_self (fs : Fs) (p : String) :
    fsLookup (fsErase fs p) p = none := by
  unfold fsLookup fsErase
  rw [List.find?_eq_none.2]
  intro x hx
  have := (List.mem_filter.mp hx).2
  simpa using this

theorem fsLookup_erase_none (fs : Fs) (p k : String)
    (h : fsLookup fs p = none) : fsLookup (fsErase fs k) p = none := by
  unfold fsLookup fsErase
  unfold fsLookup at h
  rw [List.find?_eq_none.2]
  intro x hx
  have hx' := (List.mem_filter.mp hx).1
  cases hfind : List.find? (fun e => e.1 = p) fs with
  | none =>
    have := List.find?_eq_none.mp hfind x hx'
    simpa using this
  | some e => rw [hfind] at h; cases h

theorem cleanupFiles_none (names : List String) (fs : Fs) (p : String)
    (h : fsLookup fs p = none) : fsLookup (cleanupFiles names fs) p = none := by
  induction names generalizing fs with
  | nil => simpa [cleanupFiles] using h
  | cons k rest ih =>
    show fsLookup (cleanupFiles rest (fsErase fs k)) p = none
    exact ih _ (fsLookup_erase_none fs p k h)

theorem cleanupFiles_mem (names : List String) (fs : Fs) (p : String)
    (h : p ∈ names) : fsLookup (cleanupFiles names fs) p = none := by
  induction names generalizing fs with
  | nil => cases h
  | cons k rest ih =>
    show fsLookup (cleanupFiles rest (fsErase fs k)) p = none
    rcases List.mem_cons.mp h with h | h
    · subst h
      exact cleanupFiles_none rest _ p (fsLookup_erase_self fs p)
    · exact ih _ h

/-- Every chunk the segmenter emits survived the final
`chunks.filter(chunk => chunk.length >= 100)`. -/
theorem chunkText_min_length {text c : List Char} (h : c ∈ chunkText text) :
    100 ≤ c.length := by
  unfold chunkText at h
  simpa using (List.mem_filter.mp h).2

/-! ## Claim C3 — validator verdict and independence -/

/-- C3: for every filesystem state, artifact path and requirements, the
report of `validatePodcastAudio` has `isValid` true iff its error list is
empty (so warnings never affect validity), and a readable artifact that
simultaneously exceeds `maxFileSizeBytes` and has a sample rate outside
`allowedSampleRates` gets one error entry for each of the two violations,
not just the first. -/
theorem validator_verdict_and_independence (fs : Fs) (p : String)
    (req : AudioRequirements) :
    ((validatePodcastAudio fs p req).isValid = true ↔
      (validatePodcastAudio fs p req).errors = []) ∧
    (∀ fd pd sr, fsLookup fs p = some fd → fd.probe = some pd →
      pd.hasAudioStream = true → pd.sampleRate = some sr →
      req.maxFileSizeBytes < fd.size → sr ∉ req.allowedSampleRates →
      VError.fileSizeExceeds fd.size req.maxFileSizeBytes ∈
          (validatePodcastAudio fs p req).errors ∧
        VError.sampleRateNotSupported (some sr) ∈
          (validatePodcastAudio fs p req).errors) := by
  constructor
  · cases h : fsLookup fs p with
    | none => simp [validatePodcastAudio, h]
    | some fd => simp [validatePodcastAudio, h, List.isEmpty_iff]
  · intro fd pd sr hfd hpd hstream hsr hsize hnot
    unfold validatePodcastAudio
    rw [hfd]
    simp only [hpd, hstream, hsr, hsize, if_pos, Bool.not_true]
    constructor
    · simp [hsize]
    · simp [hsize, hnot]

/-- A crafted oversized probe record used by the C3 witness. -/
def c3Probe : ProbeData :=
  { hasAudioStream := true, codecName := "mp3", bitRateBps := some 128000,
    sampleRate := some 22050, durationSec := some 10, tags := [] }

/-- A crafted oversized file used by the C3 witness. -/
def c3File : FileData := { bytes := [], size := 300, probe := some c3Probe }

/-- Requirements used by the C3 witness (200-byte ceiling). -/
def c3Req : AudioRequirements :=
  { maxFileSizeBytes := 200, minBitrate := 64, maxBitrate := 320,
    allowedSampleRates := [44100, 48000], allowedFormats := ["mp3", "m4a"] }

/-- Witness for C3 at a concrete oversized artifact with an unsupported
sample rate. -/
theorem validator_verdict_and_independence_witness :
    VError.fileSizeExceeds 300 200 ∈
        (validatePodcastAudio [("/tmp/w.mp3", c3File)] "/tmp/w.mp3" c3Req).errors ∧
      VError.sampleRateNotSupported (some 22050) ∈
        (validatePodcastAudio [("/tmp/w.mp3", c3File)] "/tmp/w.mp3" c3Req).errors :=
  (validator_verdict_and_independence [("/tmp/w.mp3", c3File)] "/tmp/w.mp3" c3Req).2
    c3File c3Probe 22050 (by decide) (by decide) (by decide) (by decide)
    (by decide) (by decide)

/-! ## Claim C9 — scratch cleanup guarantee -/

/-- C9: after any `combineAudioBuffers` run — success or failure of the
external encoding process alike — none of the scratch files it creates
(the per-chunk `${sessionId}_${i}.mp3` files, the `${sessionId}_list.txt`
concat list, and the output file) remains in the filesystem, and the
per-file deletions are best-effort (an absent file never raises). -/
theorem combine_cleanup_guarantee (fs : Fs) (sessionId date : String)
    (ffmpegOk : Bool) (probeOf : List Nat → Option ProbeData)
    (bufs : List (List Nat)) (meta : PodcastMeta) :
    (∀ i, i < bufs.length →
      fsLookup (combineAudioBuffers fs sessionId date ffmpegOk probeOf bufs meta).1
        (chunkFileName sessionId i) = none) ∧
    fsLookup (combineAudioBuffers fs sessionId date ffmpegOk probeOf bufs meta).1
      (listFileName sessionId) = none ∧
    fsLookup (combineAudioBuffers fs sessionId date ffmpegOk probeOf bufs meta).1
      (outFileName date meta) = none := by
  have hshape : ∀ p, p ∈ (List.range bufs.length).map (chunkFileName sessionId) ++
        [listFileName sessionId, outFileName date meta] →
      fsLookup (combineAudioBuffers fs sessionId date ffmpegOk probeOf bufs meta).1
        p = none := by
    intro p hp
    unfold combineAudioBuffers
    by_cases hc : (ffmpegOk && !bufs.isEmpty) = true
    · simp only [hc, if_true]
      exact cleanupFiles_mem _ _ _ hp
    · simp only [Bool.not_eq_true] at hc
      simp only [hc, Bool.false_eq_true, if_false]
      exact cleanupFiles_mem _ _ _ hp
  refine ⟨fun i hi => ?_, ?_, ?_⟩
  · exact hshape _ (by
      apply List.mem_append_left
      exact List.mem_map_of_mem _ (List.mem_range.mpr hi))
  · exact hshape _ (by simp)
  · exact hshape _ (by simp)

/-- Witness for C9 with two buffers, checking the chunk-0 scratch file. -/
theorem combine_cleanup_guarantee_witness :
    fsLookup (combineAudioBuffers [] "sess" "2025-01-01" true (fun _ => none)
      [[1], [2]] { title := "t", episodeNumber := 1 }).1
      (chunkFileName "sess" 0) = none :=
  (combine_cleanup_guarantee [] "sess" "2025-01-01" true (fun _ => none)
    [[1], [2]] { title := "t", episodeNumber := 1 }).1 0 (by decide)

/-! ## Claim C8 — synthesizer defense-in-depth -/

/-- C8: `generateSpeechChunk` fails with a synthesis error, without
issuing the outbound call, on an empty chunk and on a chunk longer than
the hard 4096-character capability ceiling; an error of the external
capability is surfaced as a synthesis error (after the call was issued). -/
theorem synthesizer_defense_in_depth
    (synth : List Char → Except String (List Nat)) (text : List Char) :
    (text = [] →
      generateSpeechChunk synth text = (false, Except.error SynthError.emptyChunk)) ∧
    (4096 < text.length →
      generateSpeechChunk synth text =
        (false, Except.error (SynthError.chunkTooLong text.length))) ∧
    (∀ msg, synth text = Except.error msg → text ≠ [] → text.length ≤ 4096 →
      (generateSpeechChunk synth text).1 = true ∧
        ∃ e, (generateSpeechChunk synth text).2 = Except.error e) := by
  refine ⟨?_, ?_, ?_⟩
  · intro h; subst h; rfl
  · intro h
    have h0 : ¬ text.length = 0 := by omega
    simp [generateSpeechChunk, h0, h]
  · intro msg hmsg hne hle
    have h0 : ¬ text.length = 0 := by
      simpa [List.length_eq_zero] using hne
    have h1 : ¬ 4096 < text.length := by omega
    by_cases hs : containsSub "string_too_long".toList msg.toList = true
    · simp only [String.toList] at hs
      refine ⟨?_, SynthError.stringTooLong text.length, ?_⟩ <;>
        simp [generateSpeechChunk, h0, h1, hmsg, hs]
    · simp only [String.toList, Bool.not_eq_true] at hs
      refine ⟨?_, SynthError.generationFailed msg, ?_⟩ <;>
        simp [generateSpeechChunk, h0, h1, hmsg, hs]

/-- Witness for C8: the empty chunk, a 4097-character chunk, and an
external failure are each rejected as stated. -/
theorem synthesizer_defense_in_depth_witness :
    (generateSpeechChunk (fun _ => Except.ok [1]) [] =
      (false, Except.error SynthError.emptyChunk)) ∧
    (generateSpeechChunk (fun _ => Except.ok [1]) (List.replicate 4097 'a') =
      (false, Except.error (SynthError.chunkTooLong (List.replicate 4097 'a').length))) ∧
    ((generateSpeechChunk (fun _ => Except.error "boom") ['h', 'i']).1 = true ∧
      ∃ e, (generateSpeechChunk (fun _ => Except.error "boom") ['h', 'i']).2 =
        Except.error e) :=
  ⟨(synthesizer_defense_in_depth _ _).1 rfl,
    (synthesizer_defense_in_depth _ _).2.1 (by rw [List.length_replicate]; omega),
    (synthesizer_defense_in_depth _ _).2.2 "boom" rfl (by simp) (by simp)⟩

/-! ## Claim C2 — repair re-validation (code bug) -/

/-- Probe facts of an artifact failing only on bitrate (500 kbps). -/
def c2Probe : ProbeData :=
  { hasAudioStream := true, codecName := "mp3", bitRateBps := some 500000,
    sampleRate := some 44100, durationSec := some 60, tags := [("title", "x")] }

/-- That artifact as a file record. -/
def c2File : FileData := { bytes := [1, 2, 3], size := 1000, probe := some c2Probe }

/-- Scratch filesystem holding that artifact at the orchestrator's
temp path. -/
def c2Fs : Fs := [("/tmp/temp_1.mp3", c2File)]

/-- C2 (code-bug evidence): the first validation of the artifact fails
only on bitrate, the repairer returns a new path, and the orchestrator
does re-run the validator on that path — but only after deleting the
repaired file, so the returned "definitive" second report is a
file-access error with `isValid` false instead of the `isValid`-true
report the claim promises for a bitrate-only failure. -/
theorem repair_revalidation_bug :
    (validatePodcastAudio c2Fs "/tmp/temp_1.mp3").errors
        = [VError.bitrateAboveMax 500 320] ∧
      (fixAudioIssues c2Fs "/tmp/temp_1.mp3"
          (validatePodcastAudio c2Fs "/tmp/temp_1.mp3")).2
        = Except.ok "/tmp/fixed_temp_1.mp3" ∧
      (generateSpeechRepairTail c2Fs "/tmp/temp_1.mp3" [1, 2, 3]).2
        = Except.ok ([1, 2, 3],
            { isValid := false, errors := [VError.failedToAccess],
              warnings := [], metadata := {} }) := by
  have hv1 : validatePodcastAudio c2Fs "/tmp/temp_1.mp3" =
      { isValid := false
        errors := [VError.bitrateAboveMax 500 320]
        warnings := []
        metadata :=
          { format := some "mp3", bitrate := some 500, sampleRate := some 44100,
            duration := some 60, fileSize := some 1000, hasId3Tags := some true } } := by
    have hb : ((500000 : ℕ) : ℚ) / 1000 = 500 := by norm_num
    unfold validatePodcastAudio
    rw [show fsLookup c2Fs "/tmp/temp_1.mp3" = some c2File from rfl]
    simp only [c2File, c2Probe]
    rw [hb]
    decide
  refine ⟨by rw [hv1], by rw [hv1]; rfl, ?_⟩
  unfold generateSpeechRepairTail
  rw [hv1]
  rfl

/-! ## Claim C5 — empty-input behaviour (corrected) -/

/-- C5 (counterexample): on the empty input the pipeline produces zero
chunks and never invokes the synthesizer, but it does not fail with an
"empty text" error — `combineAudioBuffers` is invoked with zero buffers
and the run aborts with an ffmpeg concatenation error. -/
theorem empty_input_counterexample :
    (generateSpeech (fun _ => Except.ok [0]) true (fun _ => none) "s" "t" "d"
        [] [] { title := "t", episodeNumber := 1 }).result
      = Except.error (PipeError.concatenation ConcatError.ffmpegExitedNonZero) ∧
    ∀ e : SynthError,
      (generateSpeech (fun _ => Except.ok [0]) true (fun _ => none) "s" "t" "d"
          [] [] { title := "t", episodeNumber := 1 }).result
        ≠ Except.error (PipeError.synthesis e) := by
  constructor
  · rfl
  · intro e h
    rw [show (generateSpeech (fun _ => Except.ok [0]) true (fun _ => none) "s" "t" "d"
          [] [] { title := "t", episodeNumber := 1 }).result
        = Except.error (PipeError.concatenation ConcatError.ffmpegExitedNonZero) from rfl] at h
    cases h

/-- C5 (amended): on the empty input the segmenter produces zero chunks
and the pipeline fails without ever invoking the synthesizer, but the
failure is the concatenation step's ffmpeg error (no list file was
written for zero buffers), not an explicit "empty text" error. -/
theorem empty_input_amended (synth : List Char → Except String (List Nat))
    (ffmpegOk : Bool) (probeOf : List Nat → Option ProbeData)
    (sessionId tempId date : String) (fs : Fs) (meta : PodcastMeta) :
    chunkText [] = [] ∧
    (generateSpeech synth ffmpegOk probeOf sessionId tempId date fs [] meta).synthCalls
      = [] ∧
    (generateSpeech synth ffmpegOk probeOf sessionId tempId date fs [] meta).result
      = Except.error (PipeError.concatenation ConcatError.ffmpegExitedNonZero) := by
  have hchunks : chunkText ([] : List Char) = [] := by decide
  refine ⟨hchunks, ?_, ?_⟩ <;>
    simp [generateSpeech, hchunks, synthesizeAll, combineAudioBuffers]

/-! ## Claim C6 — single-chunk shortcut -/

/-- C6: whenever segmentation yields exactly one chunk (of synthesizable
length) and synthesis of it succeeds, the pipeline never invokes the
concatenation capability and the returned artifact bytes are exactly the
synthesizer's raw output. -/
theorem single_chunk_shortcut (synth : List Char → Except String (List Nat))
    (ffmpegOk : Bool) (probeOf : List Nat → Option ProbeData)
    (sessionId tempId date : String) (fs : Fs) (meta : PodcastMeta)
    (text c : List Char) (b : List Nat)
    (h1 : chunkText text = [c]) (h2 : c.length ≤ 4096)
    (h3 : synth c = Except.ok b) :
    (generateSpeech synth ffmpegOk probeOf sessionId tempId date fs text
        meta).combineCalled = false ∧
    ∃ v, (generateSpeech synth ffmpegOk probeOf sessionId tempId date fs text
        meta).result = Except.ok (b, v) := by
  have hmem : c ∈ chunkText text := by rw [h1]; exact List.mem_singleton_self c
  have hmin : 100 ≤ c.length := chunkText_min_length hmem
  have h0 : ¬ c.length = 0 := by omega
  have h4 : ¬ 4096 < c.length := by omega
  have hchunk : generateSpeechChunk synth c = (true, Except.ok b) := by
    simp [generateSpeechChunk, h0, h4, h3]
  constructor
  · simp [generateSpeech, h1, synthesizeAll, hchunk]
  · simp only [generateSpeech, h1, synthesizeAll, hchunk]
    exact ⟨_, rfl⟩

/-- Witness for C6: a single-paragraph input that segments into exactly
one chunk, synthesized by an oracle that returns `[7, 8]`. -/
theorem single_chunk_shortcut_witness :
    chunkText ("This is a perfectly reasonable paragraph of text that is long enough to survive the minimum chunk size filter, easily.").toList
        = [("This is a perfectly reasonable paragraph of text that is long enough to survive the minimum chunk size filter, easily.").toList] ∧
    (generateSpeech (fun _ => Except.ok [7, 8]) true (fun _ => none) "s" "t" "d"
        [] ("This is a perfectly reasonable paragraph of text that is long enough to survive the minimum chunk size filter, easily.").toList
        { title := "t", episodeNumber := 1 }).combineCalled = false ∧
    ∃ v, (generateSpeech (fun _ => Except.ok [7, 8]) true (fun _ => none) "s" "t" "d"
        [] ("This is a perfectly reasonable paragraph of text that is long enough to survive the minimum chunk size filter, easily.").toList
        { title := "t", episodeNumber := 1 }).result = Except.ok ([7, 8], v) := by
  have h1 : chunkText ("This is a perfectly reasonable paragraph of text that is long enough to survive the minimum chunk size filter, easily.").toList
      = [("This is a perfectly reasonable paragraph of text that is long enough to survive the minimum chunk size filter, easily.").toList] := by decide
  have h := single_chunk_shortcut (fun _ => Except.ok [7, 8]) true (fun _ => none)
    "s" "t" "d" [] { title := "t", episodeNumber := 1 } _ _ [7, 8] h1 (by decide) rfl
  exact ⟨h1, h.1, h.2⟩

/-! ## Claim C10 — implicit sub-minimum drop -/

/-- C10: a non-empty input all of whose paragraphs fit under the ceiling
but trim to fewer than 100 characters is silently discarded: the
segmenter returns the empty chunk list (no error — `chunkText` is total)
and the pipeline issues no synthesis call. -/
theorem sub_minimum_drop (text : List Char) (hne : text ≠ [])
    (hsub : ∀ p ∈ splitPara text, p.length ≤ 3800 ∧ (trimJS p).length < 100) :
    chunkText text = [] ∧
    ∀ synth ffmpegOk probeOf sessionId tempId date fs meta,
      (generateSpeech synth ffmpegOk probeOf sessionId tempId date fs text
        meta).synthCalls = [] := by
  have hchunks : chunkText text = [] := by
    unfold chunkText
    rw [List.filter_eq_nil_iff.2]
    intro c hc
    rcases List.mem_flatMap.mp hc with ⟨p, hp, hcp⟩
    rcases hsub p hp with ⟨hlen, htrim⟩
    by_cases h0 : (trimJS p).length = 0
    · simp [h0] at hcp
    · simp only [h0, if_false, if_pos hlen] at hcp
      simp only [List.mem_singleton] at hcp
      subst hcp
      simpa using htrim
  refine ⟨hchunks, ?_⟩
  intro synth ffmpegOk probeOf sessionId tempId date fs meta
  simp only [generateSpeech, hchunks, synthesizeAll]
  split <;> rfl

/-- Witness for C10: a short single-paragraph input is dropped whole. -/
theorem sub_minimum_drop_witness :
    chunkText ("A short sentence.").toList = [] ∧
    ∀ synth ffmpegOk probeOf sessionId tempId date fs meta,
      (generateSpeech synth ffmpegOk probeOf sessionId tempId date fs
        ("A short sentence.").toList meta).synthCalls = [] :=
  sub_minimum_drop ("A short sentence.").toList (by decide) (by decide)

/-! ## Claim C7 — repair command construction (corrected) -/

/-- Probe facts of a corrupt artifact whose container reports a zero
bitrate. -/
def c7Probe : ProbeData :=
  { hasAudioStream := true, codecName := "mp3", bitRateBps := some 0,
    sampleRate := some 44100, durationSec := some 60, tags := [("t", "v")] }

/-- That artifact as a file record. -/
def c7File : FileData := { bytes := [], size := 100, probe := some c7Probe }

/-- Scratch filesystem holding that artifact. -/
def c7Fs : Fs := [("/tmp/a.mp3", c7File)]

/-- C7 (counterexample): a validation report measuring the bitrate at
0 kbps — which lies outside [64, 320], so the claim requires a forced
128 kbps re-encode — makes `fixAudioIssues` return the original path with
the filesystem untouched, because `0` is falsy in the JavaScript guard
`validation.metadata.bitrate && (...)`. -/
theorem repair_command_counterexample :
    (validatePodcastAudio c7Fs "/tmp/a.mp3").metadata.bitrate = some 0 ∧
      ((0 : ℚ) < 64 ∨ 320 < (0 : ℚ)) ∧
      (validatePodcastAudio c7Fs "/tmp/a.mp3").isValid = false ∧
      fixAudioIssues c7Fs "/tmp/a.mp3" (validatePodcastAudio c7Fs "/tmp/a.mp3")
        = (c7Fs, Except.ok "/tmp/a.mp3") := by
  have hb : ((0 : ℕ) : ℚ) / 1000 = 0 := by norm_num
  have hv : validatePodcastAudio c7Fs "/tmp/a.mp3" =
      { isValid := false
        errors := [VError.bitrateBelowMin 0 64]
        warnings := []
        metadata :=
          { format := some "mp3", bitrate := some 0, sampleRate := some 44100,
            duration := some 60, fileSize := some 100, hasId3Tags := some true } } := by
    unfold validatePodcastAudio
    rw [show fsLookup c7Fs "/tmp/a.mp3" = some c7File from rfl]
    simp only [c7File, c7Probe]
    rw [hb]
    decide
  refine ⟨by rw [hv], by norm_num, by rw [hv], ?_⟩
  rw [hv]
  rfl

/-- C7 (amended): `fixAudioIssues` builds one single re-encode pass
forcing 128 kbps when the measured bitrate is truthy (nonzero) and lies
outside [64, 320], and forcing 44100 Hz when the measured sample rate is
truthy and not in the default allowed set; both forced arguments go into
the same command.  When neither (truthiness-guarded) condition holds it
returns the original input path with the filesystem unchanged, invoking
no re-encode. -/
theorem repair_command_amended (fs : Fs) (filePath : String)
    (v : AudioValidationResult) :
    ((needsBitrateFix v || needsSampleRateFix v) = false →
      fixAudioIssues fs filePath v = (fs, Except.ok filePath)) ∧
    (∀ fd pd, (needsBitrateFix v || needsSampleRateFix v) = true →
      fsLookup fs filePath = some fd → fd.probe = some pd →
      fixAudioIssues fs filePath v =
        (fsInsert fs (joinPath (dirnameJS filePath) ("fixed_" ++ basenameJS filePath))
            (ffmpegReencode fd pd
              (if needsBitrateFix v then some 128000 else none)
              (if needsSampleRateFix v then some 44100 else none)),
          Except.ok (joinPath (dirnameJS filePath) ("fixed_" ++ basenameJS filePath)))) := by
  constructor
  · intro h
    unfold fixAudioIssues
    dsimp only
    rw [h]
    rfl
  · intro fd pd h hfd hpd
    unfold fixAudioIssues
    dsimp only
    rw [h, hfd]
    simp [hpd]

/-- A report measuring 500 kbps (fixable) used by the C7 witness. -/
def c7HighReport : AudioValidationResult :=
  { isValid := false, errors := [VError.bitrateAboveMax 500 320], warnings := []
    metadata :=
      { format := some "mp3", bitrate := some 500, sampleRate := some 44100,
        duration := some 60, fileSize := some 100, hasId3Tags := some true } }

/-- A fully compliant report (no fixable condition) used by the C7
witness. -/
def c7OkReport : AudioValidationResult :=
  { isValid := true, errors := [], warnings := []
    metadata :=
      { format := some "mp3", bitrate := some 128, sampleRate := some 44100,
        duration := some 60, fileSize := some 100, hasId3Tags := some true } }

/-- Witness for C7: a no-fix report leaves the path unchanged, and a
500 kbps report produces the single-pass re-encode at `fixed_<name>`. -/
theorem repair_command_amended_witness :
    fixAudioIssues c7Fs "/tmp/a.mp3" c7OkReport = (c7Fs, Except.ok "/tmp/a.mp3") ∧
    fixAudioIssues c7Fs "/tmp/a.mp3" c7HighReport =
      (fsInsert c7Fs (joinPath (dirnameJS "/tmp/a.mp3") ("fixed_" ++ basenameJS "/tmp/a.mp3"))
          (ffmpegReencode c7File c7Probe
            (if needsBitrateFix c7HighReport then some 128000 else none)
            (if needsSampleRateFix c7HighReport then some 44100 else none)),
        Except.ok (joinPath (dirnameJS "/tmp/a.mp3") ("fixed_" ++ basenameJS "/tmp/a.mp3"))) :=
  ⟨(repair_command_amended c7Fs "/tmp/a.mp3" c7OkReport).1 (by decide),
    (repair_command_amended c7Fs "/tmp/a.mp3" c7HighReport).2 c7File c7Probe
      (by decide) (by decide) (by decide)⟩

/-! ## Lemmas about trimming, whitespace runs and the splitters -/

/-- The whitespace-free characters of a string, in order: the yardstick
for "ordering is stable" statements. -/
def nwChars (l : List Char) : List Char :=
  l.filter (fun c => !wsChar c)

theorem flatten_sublist_of_sublist {α : Type} {l₁ l₂ : List (List α)}
    (h : l₁ <+ l₂) : l₁.flatten <+ l₂.flatten := by
  induction h with
  | slnil => exact List.Sublist.refl _
  | cons a _ ih => exact ih.trans (List.sublist_append_right a _)
  | cons₂ a _ ih => exact ih.append_left a

theorem dropWhile_eq_self_of_head {p : Char → Bool} {l : List Char}
    (h : ∀ c, l.head? = some c → p c = false) : l.dropWhile p = l := by
  cases l with
  | nil => rfl
  | cons c t =>
    rw [List.dropWhile_cons_of_neg]
    simp [h c rfl]

theorem trimJS_eq_self {l : List Char}
    (h1 : ∀ c, l.head? = some c → wsChar c = false)
    (h2 : ∀ c, l.getLast? = some c → wsChar c = false) : trimJS l = l := by
  unfold trimJS
  rw [dropWhile_eq_self_of_head h1]
  rw [dropWhile_eq_self_of_head (fun c hc => h2 c ?_)]
  · exact l.reverse_reverse
  · rwa [List.head?_reverse] at hc

theorem trimJS_cons_ws {c : Char} {l : List Char} (h : wsChar c = true) :
    trimJS (c :: l) = trimJS l := by
  unfold trimJS
  rw [List.dropWhile_cons_of_pos h]

theorem trimJS_length_le (l : List Char) : (trimJS l).length ≤ l.length := by
  unfold trimJS
  calc ((l.dropWhile wsChar).reverse.dropWhile wsChar).reverse.length
      = ((l.dropWhile wsChar).reverse.dropWhile wsChar).length := by
        rw [List.length_reverse]
    _ ≤ (l.dropWhile wsChar).reverse.length :=
        List.Sublist.length_le ((List.dropWhile_suffix _).sublist)
    _ = (l.dropWhile wsChar).length := by rw [List.length_reverse]
    _ ≤ l.length := List.Sublist.length_le ((List.dropWhile_suffix _).sublist)

theorem trimJS_within (l : List Char) : trimJS l <:+: l := by
  unfold trimJS
  have h1 : ((l.dropWhile wsChar).reverse.dropWhile wsChar).reverse <+:
      l.dropWhile wsChar := by
    rcases List.dropWhile_suffix (l := (l.dropWhile wsChar).reverse) wsChar with ⟨t, ht⟩
    exact ⟨t.reverse, by rw [← List.reverse_append, ht, List.reverse_reverse]⟩
  rcases h1 with ⟨t, ht⟩
  rcases List.dropWhile_suffix (l := l) wsChar with ⟨s, hs⟩
  exact ⟨s, t, by rw [List.append_assoc, ht, hs]⟩

theorem trimJS_nil_all_ws {l : List Char} (h : trimJS l = []) :
    ∀ c ∈ l, wsChar c = true := by
  intro c hc
  by_contra hw
  have hw' : wsChar c = false := by
    cases hcc : wsChar c
    · rfl
    · exact absurd hcc hw
  -- the first non-whitespace character survives both trims
  have hdw : l.dropWhile wsChar ≠ [] := by
    intro hnil
    have := List.dropWhile_eq_nil_iff.mp hnil c hc
    rw [hw'] at this
    cases this
  unfold trimJS at h
  rw [List.reverse_eq_nil_iff] at h
  have hrev : (l.dropWhile wsChar).reverse ≠ [] := by
    simpa [List.reverse_eq_nil_iff] using hdw
  rcases List.exists_cons_of_ne_nil hrev with ⟨d, t, hdt⟩
  -- head of the reversed dropWhile is the last char; dropping all of it
  -- means every remaining char is whitespace, including the first one,
  -- which is not whitespace by construction of dropWhile
  have hhead : ∃ e rest, l.dropWhile wsChar = e :: rest ∧ wsChar e = false := by
    rcases List.exists_cons_of_ne_nil hdw with ⟨e, rest, her⟩
    refine ⟨e, rest, her, ?_⟩
    have := List.head?_dropWhile_not wsChar l
    rw [her] at this
    simpa using this
  rcases hhead with ⟨e, rest, her, he⟩
  have hmem : e ∈ (l.dropWhile wsChar).reverse := by
    rw [her]; simp
  have := List.dropWhile_eq_nil_iff.mp h e hmem
  rw [he] at this
  cases this

theorem nwChars_append (a b : List Char) :
    nwChars (a ++ b) = nwChars a ++ nwChars b := by
  unfold nwChars
  exact List.filter_append a b

theorem nwChars_ws_cons {c : Char} {l : List Char} (h : wsChar c = true) :
    nwChars (c :: l) = nwChars l := by
  unfold nwChars
  rw [List.filter_cons_of_neg]
  simp [h]

theorem nwChars_dropWhile_ws (l : List Char) :
    nwChars (l.dropWhile wsChar) = nwChars l := by
  induction l with
  | nil => rfl
  | cons c t ih =>
    cases hc : wsChar c with
    | true => rw [List.dropWhile_cons_of_pos hc, ih, nwChars_ws_cons hc]
    | false => rw [List.dropWhile_cons_of_neg (by simp [hc])]

theorem nwChars_reverse (l : List Char) :
    nwChars l.reverse = (nwChars l).reverse := by
  unfold nwChars
  exact List.filter_reverse _ _

theorem nwChars_trimJS (l : List Char) : nwChars (trimJS l) = nwChars l := by
  unfold trimJS
  rw [nwChars_reverse, nwChars_dropWhile_ws, nwChars_reverse,
    List.reverse_reverse, nwChars_dropWhile_ws]

theorem nwChars_all_ws {l : List Char} (h : ∀ c ∈ l, wsChar c = true) :
    nwChars l = [] := by
  induction l with
  | nil => rfl
  | cons c t ih =>
    rw [nwChars_ws_cons (h c (by simp))]
    exact ih (fun c hc => h c (by simp [hc]))

/-! ### Lemmas about `splitWsF` and `nonWsRuns` -/

theorem splitWsF_ne_nil (l : List Char) : splitWsF l ≠ [] := by
  induction l with
  | nil => simp [splitWsF]
  | cons c t ih =>
    unfold splitWsF
    cases hc : wsChar c with
    | true =>
      cases t with
      | nil => simp
      | cons c' t' =>
        cases hc' : wsChar c' <;> simp [hc, hc', ih]
    | false =>
      cases hs : splitWsF t with
      | nil => simp [hc]
      | cons p ps => simp [hc, hs]

theorem splitWsF_flatten (l : List Char) : (splitWsF l).flatten = nwChars l := by
  induction l with
  | nil => rfl
  | cons c t ih =>
    unfold splitWsF
    cases hc : wsChar c with
    | true =>
      cases t with
      | nil => simp [hc, nwChars_ws_cons hc, nwChars]
      | cons c' t' =>
        cases hc' : wsChar c' <;>
          simp [hc, hc', ih, nwChars_ws_cons hc]
    | false =>
      cases hs : splitWsF t with
      | nil => exact absurd hs (splitWsF_ne_nil t)
      | cons p ps =>
        rw [hs] at ih
        simp only [hc, Bool.false_eq_true, if_false, List.flatten_cons]
        rw [show nwChars (c :: t) = c :: nwChars t by
          unfold nwChars; rw [List.filter_cons_of_pos]; simp [hc]]
        rw [← ih]
        simp

theorem splitWsF_mem_nonws {l w : List Char} (h : w ∈ splitWsF l) :
    ∀ c ∈ w, wsChar c = false := by
  induction l generalizing w with
  | nil =>
    simp only [splitWsF, List.mem_singleton] at h
    subst h
    intro c hc
    cases hc
  | cons c t ih =>
    unfold splitWsF at h
    cases hc : wsChar c with
    | true =>
      rw [hc] at h
      cases t with
      | nil =>
        simp only [if_true] at h
        rcases List.mem_cons.mp h with h | h
        · subst h; intro c hc; cases hc
        · simp only [List.mem_singleton] at h
          subst h; intro c hc; cases hc
      | cons c' t' =>
        cases hc' : wsChar c' with
        | true => simp only [hc', if_true, if_pos] at h; exact ih h
        | false =>
          simp only [hc', if_true, Bool.false_eq_true, if_false] at h
          rcases List.mem_cons.mp h with h | h
          · subst h; intro c hc; cases hc
          · exact ih h
    | false =>
      rw [hc] at h
      cases hs : splitWsF t with
      | nil => exact absurd hs (splitWsF_ne_nil t)
      | cons p ps =>
        rw [hs] at h
        simp only [Bool.false_eq_true, if_false] at h
        rcases List.mem_cons.mp h with h | h
        · subst h
          intro d hd
          rcases List.mem_cons.mp hd with hd | hd
          · subst hd; exact hc
          · exact ih (by rw [hs]; exact List.mem_cons_self p ps) d hd
        · exact ih (by rw [hs]; exact List.mem_cons_of_mem p h)

/-- The leading piece of a whitespace-headed string is empty. -/
theorem splitWsF_head_ws {c : Char} {t : List Char} (hc : wsChar c = true)
    {p : List Char} {ps : List (List Char)}
    (h : splitWsF (c :: t) = p :: ps) : p = [] := by
  induction t generalizing c p ps with
  | nil =>
    simp only [splitWsF, hc, if_true] at h
    exact (List.cons.injEq _ _ _ _ ▸ h).1.symm
  | cons c' t' ih =>
    unfold splitWsF at h
    cases hc' : wsChar c' with
    | true =>
      simp only [hc, hc', if_true] at h
      exact ih hc' h
    | false =>
      simp only [hc, hc', if_true, Bool.false_eq_true, if_false] at h
      exact (List.cons.injEq _ _ _ _ ▸ h).1.symm

/-- The leading piece of `splitWsF` is a prefix of the input. -/
theorem splitWsF_head_isPre {l p : List Char} {ps : List (List Char)}
    (h : splitWsF l = p :: ps) : p <+: l := by
  induction l generalizing p ps with
  | nil =>
    simp only [splitWsF] at h
    cases h
    exact List.nil_prefix
  | cons c t ih =>
    cases hc : wsChar c with
    | true =>
      rw [splitWsF_head_ws hc h]
      exact List.nil_prefix
    | false =>
      unfold splitWsF at h
      rw [hc] at h
      simp only [Bool.false_eq_true, if_false] at h
      cases hs : splitWsF t with
      | nil => exact absurd hs (splitWsF_ne_nil t)
      | cons q qs =>
        rw [hs] at h
        have hp : p = c :: q := (List.cons.injEq _ _ _ _ ▸ h).1.symm
        subst hp
        exact (List.prefix_cons_inj c).mpr (ih hs)

theorem splitWsF_mem_within {l w : List Char} (h : w ∈ splitWsF l) :
    w <:+: l := by
  induction l generalizing w with
  | nil =>
    simp only [splitWsF, List.mem_singleton] at h
    subst h
    exact List.infix_refl []
  | cons c t ih =>
    cases hc : wsChar c with
    | true =>
      unfold splitWsF at h
      rw [hc] at h
      have hsub : w = [] ∨ w ∈ splitWsF t := by
        cases t with
        | nil =>
          simp only [if_true] at h
          rcases List.mem_cons.mp h with h | h
          · exact Or.inl h
          · simp only [List.mem_singleton] at h
            exact Or.inl h
        | cons c' t' =>
          cases hc' : wsChar c' with
          | true => simp only [hc', if_true, if_pos] at h; exact Or.inr h
          | false =>
            simp only [hc', if_true, Bool.false_eq_true, if_false] at h
            rcases List.mem_cons.mp h with h | h
            · exact Or.inl h
            · exact Or.inr h
      rcases hsub with h | h
      · subst h; exact List.nil_infix
      · exact (ih h).trans (List.infix_cons (List.infix_refl t))
    | false =>
      unfold splitWsF at h
      rw [hc] at h
      cases hs : splitWsF t with
      | nil => exact absurd hs (splitWsF_ne_nil t)
      | cons p ps =>
        rw [hs] at h
        simp only [Bool.false_eq_true, if_false] at h
        rcases List.mem_cons.mp h with h | h
        · subst h
          exact (((List.prefix_cons_inj c).mpr (splitWsF_head_isPre hs))).isInfix
        · exact (ih (by rw [hs]; exact List.mem_cons_of_mem p h)).trans
            (List.infix_cons (List.infix_refl t))

/-- One-step unfolding of `splitWsF` on a cons cell. -/
theorem splitWsF_cons (c : Char) (t : List Char) :
    splitWsF (c :: t) =
      (if wsChar c then
        match t with
        | [] => [[], []]
        | c' :: _ => if wsChar c' then splitWsF t else [] :: splitWsF t
      else
        match splitWsF t with
        | [] => [[c]]
        | p :: ps => (c :: p) :: ps) := rfl

theorem splitWsF_ws_nil {c : Char} (hc : wsChar c = true) :
    splitWsF [c] = [[], []] := by
  rw [splitWsF_cons]
  simp [hc]

theorem splitWsF_ws_ws {c c' : Char} {t : List Char} (hc : wsChar c = true)
    (hc' : wsChar c' = true) : splitWsF (c :: c' :: t) = splitWsF (c' :: t) := by
  rw [splitWsF_cons]
  simp [hc, hc']

theorem splitWsF_ws_nonws {c c' : Char} {t : List Char} (hc : wsChar c = true)
    (hc' : wsChar c' = false) :
    splitWsF (c :: c' :: t) = [] :: splitWsF (c' :: t) := by
  rw [splitWsF_cons]
  simp [hc, hc']

theorem splitWsF_nonws {c : Char} {t : List Char} (hc : wsChar c = false) :
    splitWsF (c :: t) =
      (match splitWsF t with
        | [] => [[c]]
        | p :: ps => (c :: p) :: ps) := by
  rw [splitWsF_cons]
  simp [hc]

theorem nonWsRuns_nil : nonWsRuns [] = [] := rfl

theorem nonWsRuns_cons_ws {c : Char} {t : List Char} (hc : wsChar c = true) :
    nonWsRuns (c :: t) = nonWsRuns t := by
  unfold nonWsRuns
  cases t with
  | nil => rw [splitWsF_ws_nil hc]; rfl
  | cons c' t' =>
    cases hc' : wsChar c' with
    | true => rw [splitWsF_ws_ws hc hc']
    | false =>
      rw [splitWsF_ws_nonws hc hc']
      simp [List.filter_cons]

theorem nonWsRuns_cons_not_ws {c : Char} {t : List Char} (hc : wsChar c = false) :
    nonWsRuns (c :: t) =
      (c :: t.takeWhile (fun d => !wsChar d)) ::
        nonWsRuns (t.dropWhile (fun d => !wsChar d)) := by
  induction t generalizing c with
  | nil =>
    unfold nonWsRuns
    rw [splitWsF_nonws hc]
    rfl
  | cons e t' ih =>
    cases he : wsChar e with
    | true =>
      rw [List.takeWhile_cons_of_neg (by simp [he]),
        List.dropWhile_cons_of_neg (by simp [he])]
      unfold nonWsRuns
      rw [splitWsF_nonws hc]
      cases hs : splitWsF (e :: t') with
      | nil => exact absurd hs (splitWsF_ne_nil _)
      | cons q qs =>
        have hq : q = [] := splitWsF_head_ws he hs
        subst hq
        simp [List.filter_cons]
    | false =>
      rw [List.takeWhile_cons_of_pos (by simp [he]),
        List.dropWhile_cons_of_pos (by simp [he])]
      have hih := ih he
      cases hs' : splitWsF t' with
      | nil => exact absurd hs' (splitWsF_ne_nil _)
      | cons q' qs' =>
        have hset : splitWsF (e :: t') = (e :: q') :: qs' := by
          rw [splitWsF_nonws he, hs']
        unfold nonWsRuns at hih ⊢
        rw [hset] at hih
        rw [splitWsF_nonws hc, hset]
        simp only [List.filter_cons, List.isEmpty_cons, Bool.not_false,
          if_true] at hih ⊢
        have h1 : e :: q' = e :: t'.takeWhile (fun d => !wsChar d) :=
          (List.cons.injEq _ _ _ _ ▸ hih).1
        have h2 := (List.cons.injEq _ _ _ _ ▸ hih).2
        rw [show q' = t'.takeWhile (fun d => !wsChar d) from
          (List.cons.injEq _ _ _ _ ▸ h1).2]
        rw [h2]

theorem nonWsRuns_ws_prepend {w : List Char} (hw : ∀ c ∈ w, wsChar c = true)
    (b : List Char) : nonWsRuns (w ++ b) = nonWsRuns b := by
  induction w with
  | nil => rfl
  | cons c t ih =>
    rw [List.cons_append, nonWsRuns_cons_ws (hw c (by simp))]
    exact ih (fun d hd => hw d (by simp [hd]))

theorem nonWsRuns_append_ws {c : Char} (hc : wsChar c = true)
    (a b : List Char) : nonWsRuns (a ++ c :: b) = nonWsRuns a ++ nonWsRuns b := by
  generalize ha : a.length = n
  induction n using Nat.strong_induction_on generalizing a with
  | _ n ih =>
    cases a with
    | nil =>
      rw [List.nil_append, nonWsRuns_cons_ws hc, nonWsRuns_nil, List.nil_append]
    | cons d a' =>
      cases hd : wsChar d with
      | true =>
        rw [List.cons_append, nonWsRuns_cons_ws hd, nonWsRuns_cons_ws hd]
        exact ih a'.length (by simp [← ha]) a' rfl
      | false =>
        rw [List.cons_append, nonWsRuns_cons_not_ws hd, nonWsRuns_cons_not_ws hd]
        by_cases hall : ∀ e ∈ a', (fun d => !wsChar d) e = true
        · have htw : (a' ++ c :: b).takeWhile (fun d => !wsChar d) = a' := by
            rw [List.takeWhile_append_of_pos hall, List.takeWhile_cons_of_neg]
            · rw [List.append_nil]
            · simp [hc]
          have htw' : a'.takeWhile (fun d => !wsChar d) = a' :=
            List.takeWhile_eq_self_iff.mpr hall
          have hdw : (a' ++ c :: b).dropWhile (fun d => !wsChar d) = c :: b := by
            rw [List.dropWhile_append_of_pos hall, List.dropWhile_cons_of_neg]
            simp [hc]
          have hdw' : a'.dropWhile (fun d => !wsChar d) = [] :=
            List.dropWhile_eq_nil_iff.mpr hall
          rw [htw, htw', hdw, hdw', nonWsRuns_cons_ws hc, nonWsRuns_nil]
          rfl
        · have hne : (a'.takeWhile (fun d => !wsChar d)).length ≠ a'.length := by
            intro hlen
            refine hall (fun e he => ?_)
            have heq : a'.takeWhile (fun d => !wsChar d) = a' :=
              (List.takeWhile_prefix _).eq_of_length hlen
            have he' : e ∈ a'.takeWhile (fun d => !wsChar d) := by
              rw [heq]; exact he
            exact List.mem_takeWhile_imp (p := fun d => !wsChar d) he'
          have hdne : (a'.dropWhile (fun d => !wsChar d)).isEmpty = false := by
            cases hemp : (a'.dropWhile (fun d => !wsChar d)).isEmpty
            · rfl
            · exfalso
              refine hall (List.dropWhile_eq_nil_iff.mp ?_)
              simpa [List.isEmpty_iff] using hemp
          have htw : (a' ++ c :: b).takeWhile (fun d => !wsChar d) =
              a'.takeWhile (fun d => !wsChar d) := by
            rw [List.takeWhile_append, if_neg hne]
          have hdw : (a' ++ c :: b).dropWhile (fun d => !wsChar d) =
              a'.dropWhile (fun d => !wsChar d) ++ c :: b := by
            rw [List.dropWhile_append, hdne]
            rfl
          rw [htw, hdw]
          have hlt : (a'.dropWhile (fun d => !wsChar d)).length < n := by
            have h1 : (a'.dropWhile (fun d => !wsChar d)).length ≤ a'.length :=
              List.Sublist.length_le ((List.dropWhile_suffix _).sublist)
            simp only [← ha, List.length_cons]
            omega
          rw [ih _ hlt _ rfl]
          rfl

theorem nonWsRuns_all_ws {l : List Char} (h : ∀ c ∈ l, wsChar c = true) :
    nonWsRuns l = [] := by
  induction l with
  | nil => rfl
  | cons c t ih =>
    rw [nonWsRuns_cons_ws (h c (by simp))]
    exact ih (fun d hd => h d (by simp [hd]))

theorem nonWsRuns_append_all_ws {w : List Char} (hw : ∀ c ∈ w, wsChar c = true)
    (a : List Char) : nonWsRuns (a ++ w) = nonWsRuns a := by
  cases w with
  | nil => rw [List.append_nil]
  | cons c w' =>
    rw [nonWsRuns_append_ws (hw c (by simp)) a w',
      nonWsRuns_all_ws (l := w') (fun d hd => hw d (by simp [hd])),
      List.append_nil]

theorem nonWsRuns_dropWhile_ws (l : List Char) :
    nonWsRuns (l.dropWhile wsChar) = nonWsRuns l := by
  induction l with
  | nil => rfl
  | cons c t ih =>
    cases hc : wsChar c with
    | true => rw [List.dropWhile_cons_of_pos hc, ih, nonWsRuns_cons_ws hc]
    | false => rw [List.dropWhile_cons_of_neg (by simp [hc])]

theorem nonWsRuns_trimJS (l : List Char) :
    nonWsRuns (trimJS l) = nonWsRuns l := by
  have hm : l.dropWhile wsChar =
      trimJS l ++ ((l.dropWhile wsChar).reverse.takeWhile wsChar).reverse := by
    unfold trimJS
    rw [← List.reverse_append, List.takeWhile_append_dropWhile, List.reverse_reverse]
  have hws : ∀ c ∈ ((l.dropWhile wsChar).reverse.takeWhile wsChar).reverse,
      wsChar c = true := by
    intro c hc
    rw [List.mem_reverse] at hc
    exact List.mem_takeWhile_imp hc
  calc nonWsRuns (trimJS l)
      = nonWsRuns (trimJS l ++ ((l.dropWhile wsChar).reverse.takeWhile wsChar).reverse) :=
        (nonWsRuns_append_all_ws hws _).symm
    _ = nonWsRuns (l.dropWhile wsChar) := by rw [← hm]
    _ = nonWsRuns l := nonWsRuns_dropWhile_ws l

theorem nonWsRuns_joinSp (cs : List (List Char)) :
    nonWsRuns (joinSp cs) = (cs.map nonWsRuns).flatten := by
  induction cs with
  | nil => rfl
  | cons c cs' ih =>
    cases cs' with
    | nil => simp [joinSp]
    | cons c2 cs'' =>
      show nonWsRuns (c ++ ' ' :: joinSp (c2 :: cs'')) = _
      rw [nonWsRuns_append_ws (by decide) c (joinSp (c2 :: cs'')), ih]
      simp

/-! ### Lemmas about `runsByF`, `paraPieces` and `splitPara` -/

theorem runsByF_flatten (p : Char → Bool) (l : List Char) :
    (runsByF p l).flatten = l := by
  induction l with
  | nil => rfl
  | cons c t ih =>
    unfold runsByF
    cases hr : runsByF p t with
    | nil => rw [hr] at ih; simpa using ih.symm
    | cons r rs =>
      rw [hr] at ih
      cases r with
      | nil => simpa using ih
      | cons c' r' =>
        by_cases hpc : p c = p c'
        · simp [hpc, ← ih]
        · simp [hpc, ← ih]

/-- Glue pieces back together with the given separators (one separator
between each pair of consecutive pieces). -/
def glueWith : List (List Char) → List (List Char) → List Char
  | [], _ => []
  | [c], _ => c
  | c :: cs, [] => c ++ glueWith cs []
  | c :: cs, s :: ss => c ++ s ++ glueWith cs ss

theorem glueWith_head_append (x p : List Char) (ps seps : List (List Char)) :
    glueWith ((x ++ p) :: ps) seps = x ++ glueWith (p :: ps) seps := by
  cases ps with
  | nil => cases seps <;> rfl
  | cons q qs =>
    cases seps with
    | nil => show (x ++ p) ++ _ = _ ; rw [List.append_assoc]; rfl
    | cons s ss => show (x ++ p) ++ s ++ _ = _ ; simp [glueWith]

theorem paraPieces_ne_nil (rs : List (List Char)) : paraPieces rs ≠ [] := by
  cases rs with
  | nil => simp [paraPieces]
  | cons r rs' =>
    unfold paraPieces
    split
    · cases hp : paraPieces rs' <;> simp
    · cases hp : paraPieces rs' <;> simp

/-- Decomposition of a paragraph-separator whitespace run into the text
before its first newline, the matched `\n\s*\n` span, and the text after
its last newline. -/
theorem paraRun_decomp {r : List Char} (hws : r.all wsChar = true)
    (hcnt : 2 ≤ r.count '\n') :
    r = paraPre r ++ paraMid r ++ paraPost r ∧ paraMid r ≠ [] ∧
      ∀ c ∈ paraMid r, wsChar c = true := by
  have ht1 : r = paraPre r ++ r.dropWhile (fun c => c ≠ '\n') := by
    unfold paraPre
    rw [List.takeWhile_append_dropWhile]
  have ht2 : r.dropWhile (fun c => c ≠ '\n') = paraMid r ++ paraPost r := by
    unfold paraMid paraPost
    rw [← List.reverse_append, List.takeWhile_append_dropWhile, List.reverse_reverse]
  have hmem : '\n' ∈ r.dropWhile (fun c => c ≠ '\n') := by
    by_contra hmemn
    have hcz : r.count '\n' = 0 := by
      rw [show r.count '\n' = (paraPre r ++ r.dropWhile (fun c => c ≠ '\n')).count '\n'
          from by rw [← ht1]]
      rw [List.count_append]
      have h1 : (paraPre r).count '\n' = 0 := by
        rw [List.count_eq_zero]
        intro hmm
        have := List.mem_takeWhile_imp (p := fun c => c ≠ '\n') hmm
        simp at this
      have h2 : (r.dropWhile (fun c => c ≠ '\n')).count '\n' = 0 := by
        rw [List.count_eq_zero]
        exact hmemn
      rw [h1, h2]
    omega
  refine ⟨by rw [List.append_assoc, ← ht2, ← ht1], ?_, ?_⟩
  · unfold paraMid
    intro hnil
    rw [List.reverse_eq_nil_iff] at hnil
    have := List.dropWhile_eq_nil_iff.mp hnil '\n' (by
      rw [List.mem_reverse]; exact hmem)
    simp at this
  · intro c hc
    unfold paraMid at hc
    rw [List.mem_reverse] at hc
    have hc2 : c ∈ (r.dropWhile (fun c => c ≠ '\n')).reverse :=
      ((List.dropWhile_suffix _).sublist).mem hc
    rw [List.mem_reverse] at hc2
    have hc3 : c ∈ r := ((List.dropWhile_suffix _).sublist).mem hc2
    exact List.all_eq_true.mp hws c hc3

/-- Reassembly of the paragraph split: the pieces glued with the matched
(nonempty, all-whitespace) separators give back the run decomposition. -/
theorem paraPieces_glue (rs : List (List Char)) :
    ∃ seps : List (List Char),
      (∀ s ∈ seps, s ≠ [] ∧ ∀ c ∈ s, wsChar c = true) ∧
      seps.length + 1 = (paraPieces rs).length ∧
      glueWith (paraPieces rs) seps = rs.flatten := by
  induction rs with
  | nil => exact ⟨[], by simp, by simp [paraPieces], by simp [paraPieces, glueWith]⟩
  | cons r rs' ih =>
    rcases ih with ⟨seps, hseps, hlen, hglue⟩
    cases hp : paraPieces rs' with
    | nil => exact absurd hp (paraPieces_ne_nil rs')
    | cons p ps =>
      rw [hp] at hglue hlen
      by_cases hsep : r.all wsChar = true ∧ 2 ≤ r.count '\n'
      · rcases paraRun_decomp hsep.1 hsep.2 with ⟨hdec, hmid, hmidws⟩
        refine ⟨paraMid r :: seps, ?_, ?_, ?_⟩
        · intro s hs
          rcases List.mem_cons.mp hs with hs | hs
          · subst hs; exact ⟨hmid, hmidws⟩
          · exact hseps s hs
        · rw [show paraPieces (r :: rs') = paraPre r :: (paraPost r ++ p) :: ps from by
            unfold paraPieces
            rw [if_pos hsep, hp]]
          simp only [List.length_cons] at hlen ⊢
          omega
        · rw [show paraPieces (r :: rs') = paraPre r :: (paraPost r ++ p) :: ps from by
            unfold paraPieces
            rw [if_pos hsep, hp]]
          show paraPre r ++ paraMid r ++ glueWith ((paraPost r ++ p) :: ps) seps = _
          rw [glueWith_head_append, hglue]
          rw [List.flatten_cons]
          conv_rhs => rw [hdec]
          simp [List.append_assoc]
      · refine ⟨seps, hseps, ?_, ?_⟩
        · rw [show paraPieces (r :: rs') = (r ++ p) :: ps from by
            unfold paraPieces
            rw [if_neg hsep, hp]]
          simpa using hlen
        · rw [show paraPieces (r :: rs') = (r ++ p) :: ps from by
            unfold paraPieces
            rw [if_neg hsep, hp]]
          rw [glueWith_head_append, hglue, List.flatten_cons]

/-- Reassembly of `splitPara`: the paragraph pieces glued with nonempty
all-whitespace separators give back the input text. -/
theorem splitPara_glue (l : List Char) :
    ∃ seps : List (List Char),
      (∀ s ∈ seps, s ≠ [] ∧ ∀ c ∈ s, wsChar c = true) ∧
      seps.length + 1 = (splitPara l).length ∧
      glueWith (splitPara l) seps = l := by
  rcases paraPieces_glue (runsByF wsChar l) with ⟨seps, h1, h2, h3⟩
  exact ⟨seps, h1, h2, by rw [show splitPara l = paraPieces (runsByF wsChar l) from rfl,
    h3, runsByF_flatten]⟩

theorem glueWith_mem_within {ps seps : List (List Char)} {x : List Char}
    (h : x ∈ ps) : x <:+: glueWith ps seps := by
  induction ps generalizing seps with
  | nil => cases h
  | cons p ps' ih =>
    cases ps' with
    | nil =>
      rcases List.mem_cons.mp h with h | h
      · subst h; cases seps <;> exact List.infix_refl _
      · cases h
    | cons q qs =>
      rcases List.mem_cons.mp h with h | h
      · subst h
        cases seps with
        | nil => exact (List.prefix_append x _).isInfix
        | cons s ss =>
          show x <:+: x ++ s ++ glueWith (q :: qs) ss
          rw [List.append_assoc]
          exact (List.prefix_append x _).isInfix
      · cases seps with
        | nil =>
          exact ((@ih [] h).trans
            ((List.suffix_append p _).isInfix))
        | cons s ss =>
          show x <:+: p ++ s ++ glueWith (q :: qs) ss
          rw [List.append_assoc]
          exact ((@ih ss h).trans
            ((List.suffix_append s _).isInfix)).trans
            ((List.suffix_append p _).isInfix)

theorem splitPara_mem_within {l p : List Char} (h : p ∈ splitPara l) :
    p <:+: l := by
  rcases splitPara_glue l with ⟨seps, _, _, hglue⟩
  rw [← hglue]
  exact glueWith_mem_within h

theorem nonWsRuns_glueWith {ps seps : List (List Char)}
    (hlen : seps.length + 1 = ps.length)
    (hseps : ∀ s ∈ seps, s ≠ [] ∧ ∀ c ∈ s, wsChar c = true) :
    nonWsRuns (glueWith ps seps) = (ps.map nonWsRuns).flatten := by
  induction ps generalizing seps with
  | nil => simp at hlen
  | cons p ps' ih =>
    cases ps' with
    | nil =>
      cases seps with
      | nil => simp [glueWith]
      | cons s ss => simp at hlen
    | cons q qs =>
      cases seps with
      | nil => simp at hlen
      | cons s ss =>
        rcases hseps s (by simp) with ⟨hne, hws⟩
        rcases List.exists_cons_of_ne_nil hne with ⟨c0, s', hs0⟩
        show nonWsRuns (p ++ s ++ glueWith (q :: qs) ss) = _
        rw [List.append_assoc, hs0, List.cons_append,
          nonWsRuns_append_ws (hws c0 (by simp [hs0])),
          nonWsRuns_ws_prepend (fun d hd => hws d (by simp [hs0, hd]))]
        rw [ih (by simpa using hlen) (fun x hx => hseps x (by simp [hx]))]
        simp

/-! ## Claim C1 — segmentation round-trip (corrected) -/

/-- When every nonblank paragraph fits under the ceiling and trims to at
least the 100-character minimum, the segmenter reduces to the trimmed
nonblank paragraphs, in order. -/
theorem chunkText_paragraphs_only {text : List Char}
    (h : ∀ p ∈ splitPara text, trimJS p ≠ [] →
      p.length ≤ 3800 ∧ 100 ≤ (trimJS p).length) :
    chunkText text =
      ((splitPara text).filter (fun p => !(trimJS p).isEmpty)).map trimJS := by
  unfold chunkText
  have main : ∀ ps : List (List Char),
      (∀ p ∈ ps, trimJS p ≠ [] → p.length ≤ 3800 ∧ 100 ≤ (trimJS p).length) →
      ((ps.flatMap fun p =>
          if (trimJS p).length = 0 then []
          else if p.length ≤ 3800 then [trimJS p]
          else sentLoop [] (sentencesOf p)).filter (fun c => 100 ≤ c.length))
        = (ps.filter (fun p => !(trimJS p).isEmpty)).map trimJS := by
    intro ps hps
    induction ps with
    | nil => rfl
    | cons p ps' ih =>
      rw [List.flatMap_cons, List.filter_append, List.filter_cons]
      by_cases h0 : (trimJS p).length = 0
      · have hemp : (trimJS p).isEmpty = true := by
          rw [List.isEmpty_iff, ← List.length_eq_zero]
          exact h0
        rw [if_pos h0]
        simp only [hemp, Bool.not_true, Bool.false_eq_true, if_false,
          List.filter_nil, List.nil_append]
        exact ih (fun q hq hqt => hps q (by simp [hq]) hqt)
      · have hne : trimJS p ≠ [] := by
          intro hnil
          exact h0 (by rw [hnil]; rfl)
        rcases hps p (by simp) hne with ⟨hle, hmin⟩
        have hemp : (trimJS p).isEmpty = false := by
          cases he : (trimJS p).isEmpty
          · rfl
          · exact absurd (List.isEmpty_iff.mp he) hne
        rw [if_neg h0, if_pos hle]
        simp only [hemp, Bool.not_false, if_true]
        rw [List.filter_cons_of_pos (by simpa using hmin), List.filter_nil]
        rw [List.map_cons, List.cons_append, List.nil_append]
        rw [ih (fun q hq hqt => hps q (by simp [hq]) hqt)]
  exact main (splitPara text) h

theorem flatten_map_filter_eq {f : List Char → List (List Char)}
    {q : List Char → Bool} (ps : List (List Char))
    (h : ∀ p ∈ ps, q p = false → f p = []) :
    ((ps.filter q).map f).flatten = (ps.map f).flatten := by
  induction ps with
  | nil => rfl
  | cons p ps' ih =>
    rw [List.filter_cons]
    cases hq : q p with
    | true =>
      simp only [if_true, List.map_cons, List.flatten_cons]
      rw [ih (fun x hx => h x (by simp [hx]))]
    | false =>
      simp only [Bool.false_eq_true, if_false, List.map_cons, List.flatten_cons]
      rw [h p (by simp) hq, List.nil_append,
        ih (fun x hx => h x (by simp [hx]))]

/-- C1 (amended): for input whose every nonblank paragraph has length at
most the 3800-character ceiling and trims to at least the 100-character
minimum, concatenating the chunks with single spaces reproduces the input
up to whitespace normalization.  (The original claim's unconditional
round-trip, and its assertion that the final accumulation buffer is
flushed even below the minimum, fail: sub-minimum chunks are dropped by
the final filter and the final buffer is flushed only at ≥ 100
characters.) -/
theorem segmentation_roundtrip_amended {text : List Char}
    (h : ∀ p ∈ splitPara text, trimJS p ≠ [] →
      p.length ≤ 3800 ∧ 100 ≤ (trimJS p).length) :
    wsNorm (joinSp (chunkText text)) = wsNorm text := by
  rw [chunkText_paragraphs_only h]
  unfold wsNorm
  rw [nonWsRuns_joinSp]
  congr 1
  rw [List.map_map]
  rw [List.map_congr_left (fun p hp => by
    show (nonWsRuns ∘ trimJS) p = nonWsRuns p
    exact nonWsRuns_trimJS p)]
  rw [flatten_map_filter_eq (splitPara text) (fun p hp hq => by
    have : trimJS p = [] := by
      exact List.isEmpty_iff.mp (by simpa using hq)
    exact nonWsRuns_all_ws (trimJS_nil_all_ws this))]
  rcases splitPara_glue text with ⟨seps, hseps, hlen, hglue⟩
  rw [← nonWsRuns_glueWith hlen hseps, hglue]

/-! ### Symbolic evaluation toolkit for large concrete inputs

Direct kernel evaluation of the segmenter on multi-thousand-character
inputs is out of reach, so the concrete counterexamples below are
computed through these lemmas instead. -/

theorem runsByF_cons (p : Char → Bool) (c : Char) (t : List Char) :
    runsByF p (c :: t) =
      (match runsByF p t with
        | [] => [[c]]
        | r :: rs =>
          match r with
          | [] => [c] :: rs
          | c' :: _ => if p c = p c' then (c :: r) :: rs else [c] :: r :: rs) := rfl

theorem runsByF_head (p : Char → Bool) (c : Char) (t : List Char) :
    ∃ r rs, runsByF p (c :: t) = (c :: r) :: rs := by
  rw [runsByF_cons]
  cases hr : runsByF p t with
  | nil => exact ⟨[], [], rfl⟩
  | cons r rs =>
    cases r with
    | nil => exact ⟨[], rs, rfl⟩
    | cons c' r' =>
      by_cases hpc : p c = p c'
      · exact ⟨c' :: r', rs, by dsimp only; rw [if_pos hpc]⟩
      · exact ⟨[], (c' :: r') :: rs, by dsimp only; rw [if_neg hpc]⟩

theorem runsByF_uniform_append {p : Char → Bool} {b : Bool} :
    ∀ {r s : List Char}, r ≠ [] → (∀ c ∈ r, p c = b) →
    (s = [] ∨ ∃ c' s', s = c' :: s' ∧ ¬ p c' = b) →
    runsByF p (r ++ s) = r :: runsByF p s := by
  intro r
  induction r with
  | nil => intro s h; exact absurd rfl h
  | cons c r' ih =>
    intro s _ hu hb
    cases r' with
    | nil =>
      rcases hb with hb | ⟨c', s', hb, hpc⟩
      · subst hb; rfl
      · subst hb
        rw [List.singleton_append, runsByF_cons]
        rcases runsByF_head p c' s' with ⟨r0, rs0, hr0⟩
        rw [hr0]
        dsimp only
        rw [if_neg (by
          rw [hu c (by simp)]
          intro hcc
          exact hpc (by rw [← hcc]))]
    | cons c2 r'' =>
      have hih := ih (s := s) (by simp) (fun d hd => hu d (by simp [hd])) hb
      rw [List.cons_append, runsByF_cons, hih]
      dsimp only
      rw [if_pos (by rw [hu c (by simp), hu c2 (by simp)])]

theorem runsByF_uniform {p : Char → Bool} {b : Bool} {r : List Char}
    (h1 : r ≠ []) (h2 : ∀ c ∈ r, p c = b) : runsByF p r = [r] := by
  have := runsByF_uniform_append (p := p) (b := b) (s := []) h1 h2 (Or.inl rfl)
  simpa using this

theorem paraPieces_cons (r : List Char) (rs : List (List Char)) :
    paraPieces (r :: rs) =
      (if r.all wsChar ∧ 2 ≤ r.count '\n' then
        match paraPieces rs with
        | [] => [paraPre r, paraPost r]
        | p :: ps => paraPre r :: (paraPost r ++ p) :: ps
      else
        match paraPieces rs with
        | [] => [r]
        | p :: ps => (r ++ p) :: ps) := rfl

theorem paraPieces_nosep {rs : List (List Char)}
    (h : ∀ r ∈ rs, ¬(r.all wsChar = true ∧ 2 ≤ r.count '\n')) :
    paraPieces rs = [rs.flatten] := by
  induction rs with
  | nil => rfl
  | cons r rs' ih =>
    rw [paraPieces_cons]
    rw [if_neg (by
      intro hand
      exact h r (by simp) ⟨hand.1, hand.2⟩)]
    rw [ih (fun x hx => h x (by simp [hx]))]
    simp

theorem splitPara_no_newline {l : List Char} (h : '\n' ∉ l) :
    splitPara l = [l] := by
  show paraPieces (runsByF wsChar l) = [l]
  rw [paraPieces_nosep, runsByF_flatten]
  intro r hr hand
  have hmem : '\n' ∈ r := by
    have hpos : 0 < r.count '\n' := by omega
    exact List.count_pos_iff.mp hpos
  exact h (by
    rw [← runsByF_flatten wsChar l]
    exact List.mem_flatten.mpr ⟨r, hr, hmem⟩)

theorem sentMatches_cons (r : List Char) (rs : List (List Char)) :
    sentMatches (r :: rs) =
      (if r.any termChar then sentMatches rs
      else
        match rs with
        | [] => []
        | t :: rs' => (r ++ t) :: sentMatches rs') := by
  cases rs with
  | nil => simp only [sentMatches]
  | cons t rs' => simp only [sentMatches]

theorem any_replicate_false {p : Char → Bool} {c : Char} (n : Nat)
    (h : p c = false) : (List.replicate n c).any p = false := by
  induction n with
  | zero => rfl
  | succ m ih => rw [List.replicate_succ, List.any_cons, h, ih]; rfl

theorem trimJS_eq_self_of_all {l : List Char}
    (h : ∀ c ∈ l, wsChar c = false) : trimJS l = l := by
  refine trimJS_eq_self (fun c hc => ?_) (fun c hc => ?_)
  · exact h c (List.mem_of_mem_head? hc)
  · exact h c (List.mem_of_mem_getLast? hc)

theorem splitWsF_nonws_all {l : List Char} (h : ∀ c ∈ l, wsChar c = false)
    (hne : l ≠ []) : splitWsF l = [l] := by
  induction l with
  | nil => exact absurd rfl hne
  | cons c t ih =>
    rw [splitWsF_nonws (h c (by simp))]
    cases t with
    | nil => rfl
    | cons c2 t' =>
      rw [ih (fun d hd => h d (by simp [hd])) (by simp)]

theorem nonWsRuns_all_nonws {l : List Char} (h : ∀ c ∈ l, wsChar c = false)
    (hne : l ≠ []) : nonWsRuns l = [l] := by
  unfold nonWsRuns
  rw [splitWsF_nonws_all h hne]
  rw [List.filter_cons_of_pos (by
    simp [List.isEmpty_iff, hne])]
  rfl

theorem clauseSplitAux_nonws :
    ∀ (fuel : Nat) (prev acc l : List Char), (∀ c ∈ l, wsChar c = false) →
    clauseSplitAux fuel prev acc l = [acc.reverse ++ l] := by
  intro fuel
  induction fuel with
  | zero => intro prev acc l _; rfl
  | succ n ih =>
    intro prev acc l h
    cases l with
    | nil => simp [clauseSplitAux]
    | cons c t =>
      show (if wsChar c && lookbehindOk prev then _ else _) = _
      rw [h c (by simp)]
      rw [if_neg (by simp)]
      rw [ih (c :: prev) (c :: acc) t (fun d hd => h d (by simp [hd]))]
      simp

theorem clauseSplitAux_nonws_run :
    ∀ (l₁ : List Char) (fuel : Nat) (prev acc rest : List Char),
    (∀ c ∈ l₁, wsChar c = false) → l₁.length ≤ fuel →
    clauseSplitAux fuel prev acc (l₁ ++ rest) =
      clauseSplitAux (fuel - l₁.length) (l₁.reverse ++ prev) (l₁.reverse ++ acc)
        rest := by
  intro l₁
  induction l₁ with
  | nil => intro fuel prev acc rest _ _; simp
  | cons c l' ih =>
    intro fuel prev acc rest h hlen
    cases fuel with
    | zero => simp at hlen
    | succ n =>
      show (if wsChar c && lookbehindOk prev then _ else _) = _
      rw [h c (by simp)]
      rw [if_neg (by simp)]
      simp only [List.append_eq]
      rw [ih n (c :: prev) (c :: acc) rest (fun d hd => h d (by simp [hd]))
        (by simpa using hlen)]
      simp only [List.length_cons, List.reverse_cons, Nat.succ_sub_succ]
      rw [List.append_assoc, List.append_assoc]
      rfl

theorem clauseSplitAux_cons (fuel : Nat) (prev acc : List Char) (c : Char)
    (t : List Char) :
    clauseSplitAux (fuel + 1) prev acc (c :: t) =
      (if wsChar c && lookbehindOk prev then
        acc.reverse ::
          clauseSplitAux fuel ((c :: t.takeWhile wsChar).reverse ++ prev) []
            (t.dropWhile wsChar)
      else
        clauseSplitAux fuel (c :: prev) (c :: acc) t) := rfl

/-- An oversized two-sentence paragraph whose second sentence (the final
51-character accumulation buffer) falls below the 100-character minimum. -/
def c1Tail : List Char :=
  List.replicate 3750 'a' ++ '.' :: ' ' :: (List.replicate 50 'b' ++ ['.'])

/-- The first sentence of `c1Tail`. -/
def c1S1 : List Char := List.replicate 3750 'a' ++ ['.']

/-- The trimmed second sentence of `c1Tail`. -/
def c1S2 : List Char := List.replicate 50 'b' ++ ['.']

theorem c1S1_nonws : ∀ c ∈ c1S1, wsChar c = false := by
  intro c hc
  unfold c1S1 at hc
  rcases List.mem_append.mp hc with hc | hc
  · rw [List.eq_of_mem_replicate hc]; rfl
  · rw [List.mem_singleton.mp hc]; rfl

theorem c1S2_nonws : ∀ c ∈ c1S2, wsChar c = false := by
  intro c hc
  unfold c1S2 at hc
  rcases List.mem_append.mp hc with hc | hc
  · rw [List.eq_of_mem_replicate hc]; rfl
  · rw [List.mem_singleton.mp hc]; rfl

theorem replicate_ne_nil_of_pos {c : Char} {n : Nat} (h : 0 < n) :
    List.replicate n c ≠ [] := by
  intro heq
  have := congrArg List.length heq
  rw [List.length_replicate] at this
  simp at this
  omega

theorem c1Tail_decomp : c1Tail = c1S1 ++ ' ' :: c1S2 := by
  unfold c1Tail c1S1 c1S2
  simp [-List.reduceReplicate]

theorem c1Tail_len : c1Tail.length = 3803 := by
  unfold c1Tail
  simp [-List.reduceReplicate]

theorem c1S1_len : c1S1.length = 3751 := by
  unfold c1S1
  simp [-List.reduceReplicate]

theorem c1S2_len : c1S2.length = 51 := by
  unfold c1S2
  simp [-List.reduceReplicate]

theorem c1Tail_trim : trimJS c1Tail = c1Tail := by
  refine trimJS_eq_self (fun c hc => ?_) (fun c hc => ?_)
  · rw [show c1Tail = 'a' :: (List.replicate 3749 'a' ++
        '.' :: ' ' :: (List.replicate 50 'b' ++ ['.'])) from by
      unfold c1Tail
      rw [show (3750 : Nat) = 3749 + 1 from rfl, List.replicate_succ,
        List.cons_append]] at hc
    rw [List.head?_cons] at hc
    rw [show c = 'a' from by injection hc with h; exact h.symm]
    rfl
  · rw [show c1Tail = (List.replicate 3750 'a' ++
        '.' :: ' ' :: List.replicate 50 'b') ++ ['.'] from by
      unfold c1Tail
      simp [-List.reduceReplicate]] at hc
    rw [List.getLast?_concat] at hc
    rw [show c = '.' from by injection hc with h; exact h.symm]
    rfl

theorem c1Tail_runs : runsByF termChar c1Tail =
    [List.replicate 3750 'a', ['.'], ' ' :: List.replicate 50 'b', ['.']] := by
  have h2 : runsByF termChar ((' ' :: List.replicate 50 'b') ++ ['.']) =
      (' ' :: List.replicate 50 'b') :: runsByF termChar ['.'] :=
    runsByF_uniform_append (p := termChar) (b := false) (by simp)
      (fun c hc => by
        rcases List.mem_cons.mp hc with hc | hc
        · rw [hc]; rfl
        · rw [List.eq_of_mem_replicate hc]; rfl)
      (Or.inr ⟨'.', [], rfl, by decide⟩)
  have h1 : runsByF termChar (['.'] ++ ((' ' :: List.replicate 50 'b') ++ ['.'])) =
      ['.'] :: runsByF termChar ((' ' :: List.replicate 50 'b') ++ ['.']) :=
    runsByF_uniform_append (p := termChar) (b := true) (by simp)
      (fun c hc => by rw [List.mem_singleton.mp hc]; rfl)
      (Or.inr ⟨' ', List.replicate 50 'b' ++ ['.'], List.cons_append _ _ _, by decide⟩)
  have h0 : runsByF termChar (List.replicate 3750 'a' ++
      (['.'] ++ ((' ' :: List.replicate 50 'b') ++ ['.']))) =
      List.replicate 3750 'a' ::
        runsByF termChar (['.'] ++ ((' ' :: List.replicate 50 'b') ++ ['.'])) :=
    runsByF_uniform_append (p := termChar) (b := false)
      (replicate_ne_nil_of_pos (by omega))
      (fun c hc => by rw [List.eq_of_mem_replicate hc]; rfl)
      (Or.inr ⟨'.', [] ++ ((' ' :: List.replicate 50 'b') ++ ['.']),
        List.cons_append _ _ _, by decide⟩)
  rw [show c1Tail = List.replicate 3750 'a' ++
      (['.'] ++ ((' ' :: List.replicate 50 'b') ++ ['.'])) from by
    unfold c1Tail
    simp [-List.reduceReplicate]]
  rw [h0, h1, h2]
  rfl

theorem c1Tail_sentences : sentencesOf c1Tail = [c1S1, ' ' :: c1S2] := by
  unfold sentencesOf
  rw [c1Tail_runs]
  rw [sentMatches_cons, if_neg (by
    rw [any_replicate_false 3750 (show termChar 'a' = false from rfl)]
    exact Bool.false_ne_true)]
  dsimp only
  rw [sentMatches_cons, if_neg (by
    rw [show (' ' :: List.replicate 50 'b').any termChar = false from by
      rw [List.any_cons, any_replicate_false 50 (show termChar 'b' = false from rfl)]
      rfl]
    exact Bool.false_ne_true)]
  rfl

theorem sentLoop_nil (cur : List Char) :
    sentLoop cur [] = if 100 ≤ cur.length then [trimJS cur] else [] := rfl

theorem sentLoop_cons (cur s : List Char) (rest : List (List Char)) :
    sentLoop cur (s :: rest) =
      (let t := trimJS s
      if 3800 < t.length then clauseChunks t ++ sentLoop cur rest
      else if (cur ++ ' ' :: t).length ≤ 3800 then
        sentLoop (if cur.isEmpty then t else cur ++ ' ' :: t) rest
      else (if 100 ≤ cur.length then [trimJS cur] else []) ++ sentLoop t rest) := rfl

theorem c1_sentLoop : sentLoop [] [c1S1, ' ' :: c1S2] = [c1S1] := by
  have ht1 : trimJS c1S1 = c1S1 := trimJS_eq_self_of_all c1S1_nonws
  have ht2 : trimJS (' ' :: c1S2) = c1S2 := by
    rw [trimJS_cons_ws (by rfl)]
    exact trimJS_eq_self_of_all c1S2_nonws
  rw [sentLoop_cons]
  dsimp only
  rw [ht1]
  rw [if_neg (by rw [c1S1_len]; omega)]
  rw [if_pos (show (([] : List Char) ++ ' ' :: c1S1).length ≤ 3800 from by
    rw [List.nil_append, List.length_cons, c1S1_len]
    omega)]
  rw [if_pos (show ([] : List Char).isEmpty = true from rfl)]
  rw [sentLoop_cons]
  dsimp only
  rw [ht2]
  rw [if_neg (by rw [c1S2_len]; omega)]
  rw [if_neg (by
    rw [List.length_append, List.length_cons, c1S1_len, c1S2_len]
    omega)]
  rw [if_pos (by rw [c1S1_len]; omega)]
  rw [ht1, sentLoop_nil]
  rw [if_neg (by rw [c1S2_len]; omega)]
  rfl

theorem c1Tail_chunks : chunkText c1Tail = [c1S1] := by
  unfold chunkText
  rw [splitPara_no_newline (by
    intro hmem
    unfold c1Tail at hmem
    rcases List.mem_append.mp hmem with h | h
    · exact absurd (List.eq_of_mem_replicate h) (by decide)
    · rcases List.mem_cons.mp h with h | h
      · exact absurd h (by decide)
      · rcases List.mem_cons.mp h with h | h
        · exact absurd h (by decide)
        · rcases List.mem_append.mp h with h | h
          · exact absurd (List.eq_of_mem_replicate h) (by decide)
          · exact absurd (List.mem_singleton.mp h) (by decide))]
  rw [List.flatMap_cons, List.flatMap_nil, List.append_nil]
  rw [if_neg (by rw [c1Tail_trim, c1Tail_len]; omega)]
  rw [if_neg (by rw [c1Tail_len]; omega)]
  rw [c1Tail_sentences, c1_sentLoop]
  simp only [List.filter_cons, List.filter_nil]
  rw [show decide (100 ≤ c1S1.length) = true from by rw [c1S1_len]; rfl]
  rfl

/-- C1 (counterexample): the round trip fails.  A 12-character paragraph
is dropped whole (the chunk list is empty although the normalized input
is not), and in an oversized paragraph the final sentence-accumulation
buffer — 51 characters, below the minimum — is silently discarded rather
than flushed, so joining the chunks loses its content. -/
theorem segmentation_roundtrip_counterexample :
    (chunkText ("Hello world.").toList = [] ∧
      wsNorm (joinSp (chunkText ("Hello world.").toList)) ≠
        wsNorm ("Hello world.").toList) ∧
    chunkText c1Tail = [c1S1] ∧
    wsNorm (joinSp (chunkText c1Tail)) ≠ wsNorm c1Tail := by
  refine ⟨⟨by decide, by decide⟩, c1Tail_chunks, ?_⟩
  rw [c1Tail_chunks]
  have h1 : wsNorm (joinSp [c1S1]) = c1S1 := by
    show wsNorm c1S1 = c1S1
    unfold wsNorm
    rw [nonWsRuns_all_nonws c1S1_nonws (by
      intro h
      have := congrArg List.length h
      rw [c1S1_len] at this
      cases this)]
    rfl
  have h2 : wsNorm c1Tail = c1S1 ++ ' ' :: c1S2 := by
    unfold wsNorm
    rw [c1Tail_decomp]
    rw [nonWsRuns_append_ws (by rfl)]
    rw [nonWsRuns_all_nonws c1S1_nonws (by
      intro h
      have := congrArg List.length h
      rw [c1S1_len] at this
      cases this)]
    rw [nonWsRuns_all_nonws c1S2_nonws (by
      intro h
      have := congrArg List.length h
      rw [c1S2_len] at this
      cases this)]
    rfl
  rw [h1, h2]
  intro heq
  have := congrArg List.length heq
  rw [c1S1_len] at this
  rw [show (c1S1 ++ ' ' :: c1S2).length = c1S1.length + 1 + c1S2.length from by
    simp [-List.reduceReplicate]; omega] at this
  rw [c1S1_len, c1S2_len] at this
  omega

/-- Witness for C1 (amended) at a two-paragraph input whose paragraphs
both fit and exceed the minimum. -/
theorem segmentation_roundtrip_amended_witness :
    (∀ p ∈ splitPara ("The first paragraph of this witness input is deliberately written to be longer than one hundred characters in total.\n\nThe second paragraph of this witness input is likewise padded until it comfortably exceeds one hundred characters.").toList,
      trimJS p ≠ [] → p.length ≤ 3800 ∧ 100 ≤ (trimJS p).length) ∧
    wsNorm (joinSp (chunkText ("The first paragraph of this witness input is deliberately written to be longer than one hundred characters in total.\n\nThe second paragraph of this witness input is likewise padded until it comfortably exceeds one hundred characters.").toList)) =
      wsNorm ("The first paragraph of this witness input is deliberately written to be longer than one hundred characters in total.\n\nThe second paragraph of this witness input is likewise padded until it comfortably exceeds one hundred characters.").toList := by
  refine ⟨by decide, segmentation_roundtrip_amended (by decide)⟩

/-! ## Claim C4 — chunk bounds: machinery for the ceiling -/

theorem wordLoop_nil (wc : List Char) :
    wordLoop wc [] = if 100 ≤ wc.length then [trimJS wc] else [] := rfl

theorem wordLoop_cons (wc w : List Char) (rest : List (List Char)) :
    wordLoop wc (w :: rest) =
      (if (wc ++ ' ' :: w).length ≤ 3800 then
        wordLoop (if wc.isEmpty then w else wc ++ ' ' :: w) rest
      else
        (if 100 ≤ wc.length then [trimJS wc] else []) ++ wordLoop w rest) := rfl

theorem wordLoop_le : ∀ (ws : List (List Char)) (wc : List Char),
    wc.length ≤ 3800 → (∀ w ∈ ws, w.length ≤ 3800) →
    ∀ ch ∈ wordLoop wc ws, ch.length ≤ 3800 := by
  intro ws
  induction ws with
  | nil =>
    intro wc h1 _ ch hch
    rw [wordLoop_nil] at hch
    by_cases hc : 100 ≤ wc.length
    · rw [if_pos hc] at hch
      rw [List.mem_singleton.mp hch]
      exact le_trans (trimJS_length_le wc) h1
    · rw [if_neg hc] at hch
      cases hch
  | cons w rest ih =>
    intro wc h1 h2 ch hch
    rw [wordLoop_cons] at hch
    by_cases hfit : (wc ++ ' ' :: w).length ≤ 3800
    · rw [if_pos hfit] at hch
      refine ih _ ?_ (fun v hv => h2 v (by simp [hv])) ch hch
      by_cases hemp : wc.isEmpty = true
      · rw [if_pos hemp]
        exact h2 w (by simp)
      · rw [if_neg hemp]
        exact hfit
    · rw [if_neg hfit] at hch
      rcases List.mem_append.mp hch with hch | hch
      · by_cases hc : 100 ≤ wc.length
        · rw [if_pos hc] at hch
          rw [List.mem_singleton.mp hch]
          exact le_trans (trimJS_length_le wc) h1
        · rw [if_neg hc] at hch
          cases hch
      · exact ih w (h2 w (by simp)) (fun v hv => h2 v (by simp [hv])) ch hch

theorem clauseSplitAux_mem_within :
    ∀ (fuel : Nat) (prev acc l piece : List Char),
    piece ∈ clauseSplitAux fuel prev acc l → piece <:+: acc.reverse ++ l := by
  intro fuel
  induction fuel with
  | zero =>
    intro prev acc l piece h
    rw [List.mem_singleton.mp h]
  | succ n ih =>
    intro prev acc l piece h
    cases l with
    | nil =>
      rw [show clauseSplitAux (n + 1) prev acc [] = [acc.reverse] from rfl] at h
      rw [List.mem_singleton.mp h, List.append_nil]
    | cons c t =>
      rw [clauseSplitAux_cons] at h
      by_cases hsp : (wsChar c && lookbehindOk prev) = true
      · rw [if_pos hsp] at h
        rcases List.mem_cons.mp h with h | h
        · subst h
          exact (List.prefix_append acc.reverse (c :: t)).isInfix
        · have h1 := ih _ [] _ piece h
          rw [List.reverse_nil, List.nil_append] at h1
          refine h1.trans ?_
          exact (((List.dropWhile_suffix wsChar).trans
            (List.suffix_cons c t)).trans
            (List.suffix_append acc.reverse (c :: t))).isInfix
      · rw [if_neg hsp] at h
        have h1 := ih _ _ _ piece h
        rw [List.reverse_cons, List.append_assoc, List.singleton_append] at h1
        exact h1

theorem clauseSplit_mem_within {l piece : List Char}
    (h : piece ∈ clauseSplit l) : piece <:+: l := by
  have h1 := clauseSplitAux_mem_within (l.length + 1) [] [] l piece h
  simpa using h1

theorem clauseChunks_le {t : List Char}
    (h : ∀ w, w ≠ [] → (∀ c ∈ w, wsChar c = false) → w <:+: t →
      w.length ≤ 3800) :
    ∀ ch ∈ clauseChunks t, ch.length ≤ 3800 := by
  intro ch hch
  unfold clauseChunks at hch
  rcases List.mem_flatMap.mp hch with ⟨part, hpart, hin⟩
  by_cases hle : part.length ≤ 3800
  · rw [if_pos hle] at hin
    rw [List.mem_singleton.mp hin]
    exact le_trans (trimJS_length_le part) hle
  · rw [if_neg hle] at hin
    refine wordLoop_le (splitWsF part) [] (by decide) ?_ ch hin
    intro w hw
    rcases eq_or_ne w [] with hne | hne
    · rw [hne]
      decide
    · exact h w hne (splitWsF_mem_nonws hw)
        ((splitWsF_mem_within hw).trans (clauseSplit_mem_within hpart))

theorem sentMatches_mem_within :
    ∀ (rs : List (List Char)) (m : List Char), m ∈ sentMatches rs →
      m <:+: rs.flatten := by
  intro rs
  generalize hn : rs.length = n
  induction n using Nat.strong_induction_on generalizing rs with
  | _ n ih =>
    intro m hm
    cases rs with
    | nil => cases hm
    | cons r rs' =>
      rw [sentMatches_cons] at hm
      by_cases hr : r.any termChar = true
      · rw [if_pos hr] at hm
        have h1 := ih rs'.length (by rw [← hn, List.length_cons]; omega) rs'
          rfl m hm
        rw [List.flatten_cons]
        exact h1.trans (List.suffix_append r _).isInfix
      · rw [if_neg hr] at hm
        cases rs' with
        | nil => cases hm
        | cons t rs'' =>
          rcases List.mem_cons.mp hm with hm | hm
          · subst hm
            rw [List.flatten_cons, List.flatten_cons, ← List.append_assoc]
            exact (List.prefix_append (r ++ t) _).isInfix
          · have h1 := ih rs''.length
              (by rw [← hn, List.length_cons, List.length_cons]; omega) rs''
              rfl m hm
            rw [List.flatten_cons, List.flatten_cons]
            exact h1.trans ((List.suffix_append t _).trans
              (List.suffix_append r _)).isInfix

theorem sentencesOf_mem_within {p s : List Char} (h : s ∈ sentencesOf p) :
    s <:+: p := by
  unfold sentencesOf at h
  cases hm : sentMatches (runsByF termChar p) with
  | nil =>
    rw [hm] at h
    dsimp only at h
    rw [List.mem_singleton.mp h]
  | cons m ms =>
    rw [hm] at h
    dsimp only at h
    rw [← hm] at h
    have h2 := sentMatches_mem_within _ s h
    rwa [runsByF_flatten] at h2

theorem sentLoop_le : ∀ (ss : List (List Char)) (cur : List Char),
    cur.length ≤ 3800 →
    (∀ s ∈ ss, ∀ ch ∈ clauseChunks (trimJS s), ch.length ≤ 3800) →
    ∀ ch ∈ sentLoop cur ss, ch.length ≤ 3800 := by
  intro ss
  induction ss with
  | nil =>
    intro cur h1 _ ch hch
    rw [sentLoop_nil] at hch
    by_cases hc : 100 ≤ cur.length
    · rw [if_pos hc] at hch
      rw [List.mem_singleton.mp hch]
      exact le_trans (trimJS_length_le cur) h1
    · rw [if_neg hc] at hch
      cases hch
  | cons s rest ih =>
    intro cur h1 h2 ch hch
    rw [sentLoop_cons] at hch
    dsimp only at hch
    by_cases hbig : 3800 < (trimJS s).length
    · rw [if_pos hbig] at hch
      rcases List.mem_append.mp hch with hch | hch
      · exact h2 s (by simp) ch hch
      · exact ih cur h1 (fun v hv => h2 v (by simp [hv])) ch hch
    · rw [if_neg hbig] at hch
      by_cases hfit : (cur ++ ' ' :: trimJS s).length ≤ 3800
      · rw [if_pos hfit] at hch
        refine ih _ ?_ (fun v hv => h2 v (by simp [hv])) ch hch
        by_cases hemp : cur.isEmpty = true
        · rw [if_pos hemp]
          omega
        · rw [if_neg hemp]
          exact hfit
      · rw [if_neg hfit] at hch
        rcases List.mem_append.mp hch with hch | hch
        · by_cases hc : 100 ≤ cur.length
          · rw [if_pos hc] at hch
            rw [List.mem_singleton.mp hch]
            exact le_trans (trimJS_length_le cur) h1
          · rw [if_neg hc] at hch
            cases hch
        · exact ih (trimJS s) (by omega)
            (fun v hv => h2 v (by simp [hv])) ch hch

theorem chunkText_ceiling {text : List Char}
    (hw : ∀ w, w ≠ [] → (∀ c ∈ w, wsChar c = false) → w <:+: text →
      w.length ≤ 3800) :
    ∀ ch ∈ chunkText text, ch.length ≤ 3800 := by
  intro ch hch
  unfold chunkText at hch
  have hch' := (List.mem_filter.mp hch).1
  rcases List.mem_flatMap.mp hch' with ⟨p, hp, hin⟩
  by_cases h0 : (trimJS p).length = 0
  · rw [if_pos h0] at hin
    cases hin
  · rw [if_neg h0] at hin
    by_cases hle : p.length ≤ 3800
    · rw [if_pos hle] at hin
      rw [List.mem_singleton.mp hin]
      exact le_trans (trimJS_length_le p) hle
    · rw [if_neg hle] at hin
      refine sentLoop_le (sentencesOf p) [] (by decide) ?_ ch hin
      intro s hs
      refine clauseChunks_le (fun w hne hnonws hinf => ?_)
      exact hw w hne hnonws
        ((hinf.trans (trimJS_within s)).trans
          ((sentencesOf_mem_within hs).trans (splitPara_mem_within hp)))

/-! ## Claim C4 — chunk bounds: machinery for source order -/

theorem sentMatches_flatten_sublist :
    ∀ (rs : List (List Char)), (sentMatches rs).flatten <+ rs.flatten := by
  intro rs
  generalize hn : rs.length = n
  induction n using Nat.strong_induction_on generalizing rs with
  | _ n ih =>
    cases rs with
    | nil => exact List.Sublist.refl _
    | cons r rs' =>
      rw [sentMatches_cons]
      by_cases hr : r.any termChar = true
      · rw [if_pos hr, List.flatten_cons]
        exact (ih rs'.length (by rw [← hn, List.length_cons]; omega) rs'
          rfl).trans (List.sublist_append_right r _)
      · rw [if_neg hr]
        cases rs' with
        | nil => exact List.nil_sublist _
        | cons t rs'' =>
          rw [List.flatten_cons, List.flatten_cons, List.flatten_cons,
            ← List.append_assoc]
          exact List.Sublist.append (List.Sublist.refl (r ++ t))
            (ih rs''.length
              (by rw [← hn, List.length_cons, List.length_cons]; omega) rs'' rfl)

theorem sentencesOf_flatten_sublist (p : List Char) :
    (sentencesOf p).flatten <+ p := by
  unfold sentencesOf
  cases hm : sentMatches (runsByF termChar p) with
  | nil => simp
  | cons m ms =>
    have h := sentMatches_flatten_sublist (runsByF termChar p)
    rw [hm, runsByF_flatten] at h
    exact h

theorem nwChars_flatten : ∀ (L : List (List Char)),
    nwChars L.flatten = (L.map nwChars).flatten := by
  intro L
  induction L with
  | nil => rfl
  | cons a L' ih =>
    rw [List.flatten_cons, nwChars_append, List.map_cons, List.flatten_cons, ih]

theorem glueWith_single (c : List Char) (seps : List (List Char)) :
    glueWith [c] seps = c := by
  cases seps <;> rfl

theorem nwChars_glueWith :
    ∀ (ps seps : List (List Char)), (∀ s ∈ seps, ∀ c ∈ s, wsChar c = true) →
    nwChars (glueWith ps seps) = (ps.map nwChars).flatten := by
  intro ps
  induction ps with
  | nil => intro seps _; cases seps <;> rfl
  | cons c cs ih =>
    intro seps hseps
    cases cs with
    | nil =>
      rw [glueWith_single, List.map_cons, List.map_nil, List.flatten_cons,
        List.flatten_nil, List.append_nil]
    | cons q qs =>
      cases seps with
      | nil =>
        show nwChars (c ++ glueWith (q :: qs) []) = _
        rw [nwChars_append, ih [] (by simp)]
        rfl
      | cons s ss =>
        show nwChars (c ++ s ++ glueWith (q :: qs) ss) = _
        rw [List.append_assoc, nwChars_append, nwChars_append,
          nwChars_all_ws (fun d hd => hseps s (by simp) d hd),
          List.nil_append, ih ss (fun v hv => hseps v (by simp [hv]))]
        rfl

theorem nwChars_splitPara (text : List Char) :
    nwChars text = ((splitPara text).map nwChars).flatten := by
  rcases splitPara_glue text with ⟨seps, hseps, _, hglue⟩
  conv_lhs => rw [← hglue]
  exact nwChars_glueWith _ _ (fun s hs => (hseps s hs).2)

theorem flatten_map_mono {α : Type} {f g : α → List Char} :
    ∀ (P : List α), (∀ p ∈ P, f p <+ g p) →
    (P.map f).flatten <+ (P.map g).flatten := by
  intro P
  induction P with
  | nil => intro _; exact List.Sublist.refl _
  | cons a P' ih =>
    intro h
    rw [List.map_cons, List.map_cons, List.flatten_cons, List.flatten_cons]
    exact List.Sublist.append (h a (by simp)) (ih (fun p hp => h p (by simp [hp])))

theorem flatten_flatMap {α : Type} (f : α → List (List Char)) :
    ∀ (P : List α),
    (P.flatMap f).flatten = (P.map (fun p => (f p).flatten)).flatten := by
  intro P
  induction P with
  | nil => rfl
  | cons a P' ih =>
    rw [List.flatMap_cons, List.flatten_append, List.map_cons,
      List.flatten_cons, ih]

theorem sentLoop_order : ∀ (ss : List (List Char)) (cur : List Char),
    (∀ s ∈ ss, (trimJS s).length ≤ 3800) →
    nwChars (sentLoop cur ss).flatten <+
      nwChars cur ++ nwChars (ss.map trimJS).flatten := by
  intro ss
  induction ss with
  | nil =>
    intro cur _
    rw [sentLoop_nil]
    by_cases hc : 100 ≤ cur.length
    · rw [if_pos hc]
      rw [show ([trimJS cur] : List (List Char)).flatten = trimJS cur ++ []
        from rfl, List.append_nil, nwChars_trimJS]
      rw [List.map_nil, List.flatten_nil]
      exact List.sublist_append_left _ _
    · rw [if_neg hc]
      exact List.nil_sublist _
  | cons s rest ih =>
    intro cur h
    rw [sentLoop_cons]
    dsimp only
    rw [if_neg (by
      have := h s (by simp)
      omega)]
    have hrest : ∀ v ∈ rest, (trimJS v).length ≤ 3800 :=
      fun v hv => h v (by simp [hv])
    have hmap : nwChars ((s :: rest).map trimJS).flatten =
        nwChars (trimJS s) ++ nwChars (rest.map trimJS).flatten := by
      rw [List.map_cons, List.flatten_cons, nwChars_append]
    by_cases hfit : (cur ++ ' ' :: trimJS s).length ≤ 3800
    · rw [if_pos hfit]
      have h1 := ih (if cur.isEmpty then trimJS s else cur ++ ' ' :: trimJS s)
        hrest
      refine h1.trans ?_
      rw [hmap]
      by_cases hemp : cur.isEmpty = true
      · rw [if_pos hemp]
        rw [show cur = [] from List.isEmpty_iff.mp hemp]
        rw [show nwChars [] = [] from rfl, List.nil_append]
      · rw [if_neg hemp]
        rw [nwChars_append, nwChars_ws_cons (show wsChar ' ' = true from rfl),
          List.append_assoc]
    · rw [if_neg hfit]
      rw [List.flatten_append, nwChars_append, hmap]
      by_cases hc : 100 ≤ cur.length
      · rw [if_pos hc]
        rw [show ([trimJS cur] : List (List Char)).flatten = trimJS cur ++ []
          from rfl, List.append_nil, nwChars_trimJS]
        exact List.Sublist.append (List.Sublist.refl _) (ih (trimJS s) hrest)
      · rw [if_neg hc]
        rw [show (([] : List (List Char))).flatten = [] from rfl]
        rw [show nwChars [] = [] from rfl, List.nil_append]
        exact (ih (trimJS s) hrest).trans
          (List.sublist_append_right (nwChars cur) _)

theorem chunkBranch_order {p : List Char}
    (hp : p.length ≤ 3800 ∨ ∀ s ∈ sentencesOf p, (trimJS s).length ≤ 3800) :
    nwChars ((if (trimJS p).length = 0 then []
      else if p.length ≤ 3800 then [trimJS p]
      else sentLoop [] (sentencesOf p)).flatten) <+ nwChars p := by
  by_cases h0 : (trimJS p).length = 0
  · rw [if_pos h0]
    exact List.nil_sublist _
  · rw [if_neg h0]
    by_cases hle : p.length ≤ 3800
    · rw [if_pos hle]
      rw [show ([trimJS p] : List (List Char)).flatten = trimJS p ++ []
        from rfl, List.append_nil, nwChars_trimJS]
    · rw [if_neg hle]
      have hs : ∀ s ∈ sentencesOf p, (trimJS s).length ≤ 3800 := by
        rcases hp with hp | hp
        · exact absurd hp hle
        · exact hp
      have h1 := sentLoop_order (sentencesOf p) [] hs
      rw [show nwChars [] = [] from rfl, List.nil_append] at h1
      refine h1.trans ?_
      rw [nwChars_flatten, List.map_map]
      rw [show (sentencesOf p).map (nwChars ∘ trimJS) =
          (sentencesOf p).map nwChars from
        List.map_congr_left (fun s _ => nwChars_trimJS s)]
      rw [← nwChars_flatten]
      exact (sentencesOf_flatten_sublist p).filter _

theorem chunkText_order {text : List Char}
    (hs : ∀ p ∈ splitPara text, p.length ≤ 3800 ∨
      ∀ s ∈ sentencesOf p, (trimJS s).length ≤ 3800) :
    nwChars (chunkText text).flatten <+ nwChars text := by
  unfold chunkText
  refine List.Sublist.trans
    ((flatten_sublist_of_sublist (List.filter_sublist _)).filter _) ?_
  show nwChars ((splitPara text).flatMap fun p =>
      if (trimJS p).length = 0 then []
      else if p.length ≤ 3800 then [trimJS p]
      else sentLoop [] (sentencesOf p)).flatten <+ nwChars text
  rw [flatten_flatMap, nwChars_flatten, List.map_map, nwChars_splitPara]
  exact flatten_map_mono (splitPara text) (fun p hp => chunkBranch_order (hs p hp))

/-- C4 (amended): every chunk returned by the segmenter is non-empty —
indeed at least the 100-character minimum.  The 3800-character ceiling
holds under the extra hypothesis that no whitespace-free word of the
input is itself longer than 3800 characters, and source order (the
concatenated non-whitespace text of the chunks is a subsequence of the
input's non-whitespace text) holds under the extra hypothesis that every
paragraph either fits the ceiling or contains no oversized sentence.
Without those hypotheses the ceiling and the ordering both fail, as the
counterexample shows. -/
theorem chunk_bounds_amended (text : List Char) :
    (∀ ch ∈ chunkText text, ch ≠ [] ∧ 100 ≤ ch.length) ∧
    ((∀ w, w ≠ [] → (∀ c ∈ w, wsChar c = false) → w <:+: text →
        w.length ≤ 3800) →
      ∀ ch ∈ chunkText text, ch.length ≤ 3800) ∧
    ((∀ p ∈ splitPara text, p.length ≤ 3800 ∨
        ∀ s ∈ sentencesOf p, (trimJS s).length ≤ 3800) →
      nwChars (chunkText text).flatten <+ nwChars text) := by
  refine ⟨fun ch hch => ?_, fun hw => chunkText_ceiling hw,
    fun hs => chunkText_order hs⟩
  have h := chunkText_min_length hch
  refine ⟨fun hnil => ?_, h⟩
  rw [hnil] at h
  exact absurd h (by decide)

/-- Witness for C4 (amended) at a concrete 122-character one-paragraph
input, which the segmenter keeps as a single chunk. -/
theorem chunk_bounds_amended_witness :
    (("This witness paragraph is comfortably longer than one hundred characters, so the minimum chunk size filter keeps it whole.").toList ≠ [] ∧
      100 ≤ (("This witness paragraph is comfortably longer than one hundred characters, so the minimum chunk size filter keeps it whole.").toList).length) ∧
    (("This witness paragraph is comfortably longer than one hundred characters, so the minimum chunk size filter keeps it whole.").toList).length ≤ 3800 ∧
    nwChars (chunkText ("This witness paragraph is comfortably longer than one hundred characters, so the minimum chunk size filter keeps it whole.").toList).flatten <+
      nwChars ("This witness paragraph is comfortably longer than one hundred characters, so the minimum chunk size filter keeps it whole.").toList := by
  obtain ⟨h1, h2, h3⟩ := chunk_bounds_amended
    ("This witness paragraph is comfortably longer than one hundred characters, so the minimum chunk size filter keeps it whole.").toList
  exact ⟨h1 _ (by decide),
    h2 (fun w hne hnw hinf => le_trans hinf.length_le (by decide)) _ (by decide),
    h3 (by decide)⟩

/-! ## Claim C4 — counterexample inputs -/

/-- A single 3801-character word: longer than the ceiling, with no
paragraph, sentence, clause or word boundary to split at. -/
def c4A : List Char := List.replicate 3801 'a'

theorem c4A_nonws : ∀ c ∈ c4A, wsChar c = false := by
  intro c hc
  unfold c4A at hc
  rw [List.eq_of_mem_replicate hc]
  rfl

theorem c4A_len : c4A.length = 3801 := by
  unfold c4A
  rw [List.length_replicate]

theorem c4A_trim : trimJS c4A = c4A := trimJS_eq_self_of_all c4A_nonws

theorem c4A_sentences : sentencesOf c4A = [c4A] := by
  unfold sentencesOf c4A
  rw [runsByF_uniform (b := false) (replicate_ne_nil_of_pos (by omega))
    (fun c hc => by rw [List.eq_of_mem_replicate hc]; rfl)]
  rw [sentMatches_cons, if_neg (by
    rw [any_replicate_false 3801 (show termChar 'a' = false from rfl)]
    exact Bool.false_ne_true)]

theorem c4A_clauseSplit : clauseSplit c4A = [c4A] := by
  unfold clauseSplit
  rw [clauseSplitAux_nonws _ _ _ _ c4A_nonws]
  rw [List.reverse_nil, List.nil_append]

theorem c4A_wordLoop : wordLoop [] (splitWsF c4A) = [c4A] := by
  rw [splitWsF_nonws_all c4A_nonws (by
    intro h
    have := congrArg List.length h
    rw [c4A_len] at this
    cases this)]
  rw [wordLoop_cons]
  rw [if_neg (by
    rw [List.nil_append, List.length_cons, c4A_len]
    omega)]
  rw [if_neg (by decide)]
  rw [List.nil_append, wordLoop_nil, if_pos (by rw [c4A_len]; omega), c4A_trim]

theorem c4A_clauseChunks : clauseChunks c4A = [c4A] := by
  unfold clauseChunks
  rw [c4A_clauseSplit]
  rw [List.flatMap_cons, List.flatMap_nil, List.append_nil]
  rw [if_neg (by rw [c4A_len]; omega)]
  exact c4A_wordLoop

theorem c4A_chunks : chunkText c4A = [c4A] := by
  unfold chunkText
  rw [splitPara_no_newline (by
    intro hmem
    unfold c4A at hmem
    exact absurd (List.eq_of_mem_replicate hmem) (by decide))]
  rw [List.flatMap_cons, List.flatMap_nil, List.append_nil]
  rw [if_neg (by rw [c4A_trim, c4A_len]; omega)]
  rw [if_neg (by rw [c4A_len]; omega)]
  rw [c4A_sentences]
  rw [sentLoop_cons]
  dsimp only
  rw [c4A_trim]
  rw [if_pos (by rw [c4A_len]; omega)]
  rw [c4A_clauseChunks, sentLoop_nil, if_neg (by decide), List.append_nil]
  simp only [List.filter_cons, List.filter_nil]
  rw [show decide (100 ≤ c4A.length) = true from by rw [c4A_len]; rfl]
  rfl

/-- First sentence of the order-violation input: 120 `b`s and a period. -/
def c4S1 : List Char := List.replicate 120 'b' ++ ['.']

/-- The first clause part the oversized second sentence splits into. -/
def c4P1 : List Char := List.replicate 200 'c' ++ [',']

/-- The second clause part of the oversized second sentence. -/
def c4P2 : List Char := List.replicate 3650 'd' ++ ['.']

/-- The trimmed second sentence (3853 characters, over the ceiling). -/
def c4T2 : List Char :=
  List.replicate 200 'c' ++ ',' :: ' ' :: (List.replicate 3650 'd' ++ ['.'])

/-- The non-terminator run between the two periods. -/
def c4Mid : List Char :=
  ' ' :: (List.replicate 200 'c' ++ ',' :: ' ' :: List.replicate 3650 'd')

/-- The second sentence as matched (leading space kept). -/
def c4S2 : List Char := ' ' :: c4T2

/-- The order-violation input: a short sentence followed by an oversized
two-clause sentence, in one paragraph. -/
def c4Order : List Char := List.replicate 120 'b' ++ '.' :: c4S2

theorem c4S1_nonws : ∀ c ∈ c4S1, wsChar c = false := by
  intro c hc
  unfold c4S1 at hc
  rcases List.mem_append.mp hc with h | h
  · rw [List.eq_of_mem_replicate h]; rfl
  · rw [List.mem_singleton.mp h]; rfl

theorem c4P1_nonws : ∀ c ∈ c4P1, wsChar c = false := by
  intro c hc
  unfold c4P1 at hc
  rcases List.mem_append.mp hc with h | h
  · rw [List.eq_of_mem_replicate h]; rfl
  · rw [List.mem_singleton.mp h]; rfl

theorem c4P2_nonws : ∀ c ∈ c4P2, wsChar c = false := by
  intro c hc
  unfold c4P2 at hc
  rcases List.mem_append.mp hc with h | h
  · rw [List.eq_of_mem_replicate h]; rfl
  · rw [List.mem_singleton.mp h]; rfl

theorem c4Mid_noterm : ∀ c ∈ c4Mid, termChar c = false := by
  intro c hc
  unfold c4Mid at hc
  rcases List.mem_cons.mp hc with h | h
  · rw [h]; rfl
  · rcases List.mem_append.mp h with h | h
    · rw [List.eq_of_mem_replicate h]; rfl
    · rcases List.mem_cons.mp h with h | h
      · rw [h]; rfl
      · rcases List.mem_cons.mp h with h | h
        · rw [h]; rfl
        · rw [List.eq_of_mem_replicate h]; rfl

theorem c4S1_len : c4S1.length = 121 := by
  unfold c4S1
  simp [-List.reduceReplicate]

theorem c4P1_len : c4P1.length = 201 := by
  unfold c4P1
  simp [-List.reduceReplicate]

theorem c4P2_len : c4P2.length = 3651 := by
  unfold c4P2
  simp [-List.reduceReplicate]

theorem c4T2_len : c4T2.length = 3853 := by
  unfold c4T2
  simp [-List.reduceReplicate]

theorem c4Order_len : c4Order.length = 3975 := by
  unfold c4Order c4S2 c4T2
  simp [-List.reduceReplicate]

theorem c4Order_trim : trimJS c4Order = c4Order := by
  refine trimJS_eq_self (fun c hc => ?_) (fun c hc => ?_)
  · rw [show c4Order = 'b' :: (List.replicate 119 'b' ++ '.' :: c4S2) from by
      unfold c4Order
      rw [show (120 : Nat) = 119 + 1 from rfl, List.replicate_succ,
        List.cons_append]] at hc
    rw [List.head?_cons] at hc
    rw [show c = 'b' from by injection hc with h; exact h.symm]
    rfl
  · rw [show c4Order = (List.replicate 120 'b' ++ '.' :: ' ' ::
        (List.replicate 200 'c' ++ ',' :: ' ' :: List.replicate 3650 'd')) ++
        ['.'] from by
      unfold c4Order c4S2 c4T2
      simp [-List.reduceReplicate]] at hc
    rw [List.getLast?_concat] at hc
    rw [show c = '.' from by injection hc with h; exact h.symm]
    rfl

theorem c4S2_trim : trimJS c4S2 = c4T2 := by
  unfold c4S2
  rw [trimJS_cons_ws (show wsChar ' ' = true from rfl)]
  refine trimJS_eq_self (fun c hc => ?_) (fun c hc => ?_)
  · rw [show c4T2 = 'c' :: (List.replicate 199 'c' ++ ',' :: ' ' ::
        (List.replicate 3650 'd' ++ ['.'])) from by
      unfold c4T2
      rw [show (200 : Nat) = 199 + 1 from rfl, List.replicate_succ,
        List.cons_append]] at hc
    rw [List.head?_cons] at hc
    rw [show c = 'c' from by injection hc with h; exact h.symm]
    rfl
  · rw [show c4T2 = (List.replicate 200 'c' ++ ',' :: ' ' ::
        List.replicate 3650 'd') ++ ['.'] from by
      unfold c4T2
      simp [-List.reduceReplicate]] at hc
    rw [List.getLast?_concat] at hc
    rw [show c = '.' from by injection hc with h; exact h.symm]
    rfl

theorem c4Order_runs : runsByF termChar c4Order =
    [List.replicate 120 'b', ['.'], c4Mid, ['.']] := by
  have h2 : runsByF termChar (c4Mid ++ ['.']) =
      c4Mid :: runsByF termChar ['.'] :=
    runsByF_uniform_append (p := termChar) (b := false)
      (by unfold c4Mid; exact List.cons_ne_nil _ _)
      (fun c hc => c4Mid_noterm c hc)
      (Or.inr ⟨'.', [], rfl, by decide⟩)
  have h1 : runsByF termChar (['.'] ++ (c4Mid ++ ['.'])) =
      ['.'] :: runsByF termChar (c4Mid ++ ['.']) :=
    runsByF_uniform_append (p := termChar) (b := true) (by simp)
      (fun c hc => by rw [List.mem_singleton.mp hc]; rfl)
      (Or.inr ⟨' ',
        (List.replicate 200 'c' ++ ',' :: ' ' :: List.replicate 3650 'd') ++
          ['.'],
        by unfold c4Mid; rw [List.cons_append], by decide⟩)
  have h0 : runsByF termChar (List.replicate 120 'b' ++
      (['.'] ++ (c4Mid ++ ['.']))) =
      List.replicate 120 'b' :: runsByF termChar (['.'] ++ (c4Mid ++ ['.'])) :=
    runsByF_uniform_append (p := termChar) (b := false)
      (replicate_ne_nil_of_pos (by omega))
      (fun c hc => by rw [List.eq_of_mem_replicate hc]; rfl)
      (Or.inr ⟨'.', [] ++ (c4Mid ++ ['.']), List.cons_append _ _ _, by decide⟩)
  rw [show c4Order = List.replicate 120 'b' ++ (['.'] ++ (c4Mid ++ ['.']))
    from by
      unfold c4Order c4S2 c4T2 c4Mid
      simp [-List.reduceReplicate]]
  rw [h0, h1, h2]
  rfl

theorem c4Order_sentences : sentencesOf c4Order = [c4S1, c4S2] := by
  unfold sentencesOf
  rw [c4Order_runs]
  rw [sentMatches_cons, if_neg (by
    rw [any_replicate_false 120 (show termChar 'b' = false from rfl)]
    exact Bool.false_ne_true)]
  dsimp only
  rw [sentMatches_cons, if_neg (by
    rw [List.any_eq_false.mpr (fun c hc => by
      rw [c4Mid_noterm c hc]
      exact Bool.false_ne_true)]
    exact Bool.false_ne_true)]
  dsimp only
  rw [show c4Mid ++ ['.'] = c4S2 from by
    unfold c4Mid c4S2 c4T2
    simp [-List.reduceReplicate]]
  rfl

theorem c4T2_clauseSplit : clauseSplit c4T2 = [c4P1, c4P2] := by
  unfold clauseSplit
  rw [c4T2_len]
  rw [show c4T2 = (List.replicate 200 'c' ++ [',']) ++
      (' ' :: (List.replicate 3650 'd' ++ ['.'])) from by
    unfold c4T2
    simp [-List.reduceReplicate]]
  rw [clauseSplitAux_nonws_run (List.replicate 200 'c' ++ [','])
    (3853 + 1) [] [] (' ' :: (List.replicate 3650 'd' ++ ['.']))
    c4P1_nonws
    (by
      rw [show (List.replicate 200 'c' ++ [',']).length = 201 from by
        simp [-List.reduceReplicate]]
      omega)]
  rw [show (3853 + 1) - (List.replicate 200 'c' ++ [',']).length = 3652 + 1
    from by simp [-List.reduceReplicate]]
  rw [clauseSplitAux_cons]
  have hlb : lookbehindOk ((List.replicate 200 'c' ++ [',']).reverse ++ []) =
      true := by
    rw [List.append_nil, show (List.replicate 200 'c' ++ [',']).reverse =
      ',' :: (List.replicate 200 'c').reverse from by
        simp [-List.reduceReplicate]]
    rfl
  rw [if_pos (by rw [hlb]; rfl)]
  rw [show List.replicate 3650 'd' ++ ['.'] =
      'd' :: (List.replicate 3649 'd' ++ ['.']) from by
    rw [show (3650 : Nat) = 3649 + 1 from rfl, List.replicate_succ,
      List.cons_append]]
  rw [List.takeWhile_cons_of_neg (by decide),
    List.dropWhile_cons_of_neg (by decide)]
  rw [clauseSplitAux_nonws _ _ _ _ (by
    intro c hc
    rcases List.mem_cons.mp hc with h | h
    · rw [h]; rfl
    · rcases List.mem_append.mp h with h | h
      · rw [List.eq_of_mem_replicate h]; rfl
      · rw [List.mem_singleton.mp h]; rfl)]
  rw [List.append_nil, List.reverse_reverse, List.reverse_nil,
    List.nil_append]
  rfl

theorem c4T2_clauseChunks : clauseChunks c4T2 = [c4P1, c4P2] := by
  unfold clauseChunks
  rw [c4T2_clauseSplit]
  rw [List.flatMap_cons, List.flatMap_cons, List.flatMap_nil, List.append_nil]
  rw [if_pos (by rw [c4P1_len]; omega), if_pos (by rw [c4P2_len]; omega)]
  rw [trimJS_eq_self_of_all c4P1_nonws, trimJS_eq_self_of_all c4P2_nonws]
  rfl

theorem c4_sentLoop : sentLoop [] [c4S1, c4S2] = [c4P1, c4P2, c4S1] := by
  have ht1 : trimJS c4S1 = c4S1 := trimJS_eq_self_of_all c4S1_nonws
  rw [sentLoop_cons]
  dsimp only
  rw [ht1]
  rw [if_neg (by rw [c4S1_len]; omega)]
  rw [if_pos (by rw [List.nil_append, List.length_cons, c4S1_len]; omega)]
  rw [if_pos (show ([] : List Char).isEmpty = true from rfl)]
  rw [sentLoop_cons]
  dsimp only
  rw [c4S2_trim]
  rw [if_pos (by rw [c4T2_len]; omega)]
  rw [c4T2_clauseChunks]
  rw [sentLoop_nil, if_pos (by rw [c4S1_len]; omega), ht1]
  rfl

theorem c4Order_chunks : chunkText c4Order = [c4P1, c4P2, c4S1] := by
  unfold chunkText
  rw [splitPara_no_newline (by
    intro hmem
    unfold c4Order c4S2 c4T2 at hmem
    rcases List.mem_append.mp hmem with h | h
    · exact absurd (List.eq_of_mem_replicate h) (by decide)
    · rcases List.mem_cons.mp h with h | h
      · exact absurd h (by decide)
      · rcases List.mem_cons.mp h with h | h
        · exact absurd h (by decide)
        · rcases List.mem_append.mp h with h | h
          · exact absurd (List.eq_of_mem_replicate h) (by decide)
          · rcases List.mem_cons.mp h with h | h
            · exact absurd h (by decide)
            · rcases List.mem_cons.mp h with h | h
              · exact absurd h (by decide)
              · rcases List.mem_append.mp h with h | h
                · exact absurd (List.eq_of_mem_replicate h) (by decide)
                · exact absurd (List.mem_singleton.mp h) (by decide))]
  rw [List.flatMap_cons, List.flatMap_nil, List.append_nil]
  rw [if_neg (by rw [c4Order_trim, c4Order_len]; omega)]
  rw [if_neg (by rw [c4Order_len]; omega)]
  rw [c4Order_sentences, c4_sentLoop]
  simp only [List.filter_cons, List.filter_nil]
  rw [show decide (100 ≤ c4P1.length) = true from by rw [c4P1_len]; rfl]
  rw [show decide (100 ≤ c4P2.length) = true from by rw [c4P2_len]; rfl]
  rw [show decide (100 ≤ c4S1.length) = true from by rw [c4S1_len]; rfl]
  rfl

theorem nwChars_eq_self_of_all {l : List Char}
    (h : ∀ c ∈ l, wsChar c = false) : nwChars l = l :=
  List.filter_eq_self.mpr (fun c hc => by rw [h c hc]; rfl)

theorem c4Order_not_sublist :
    ¬ nwChars (chunkText c4Order).flatten <+ nwChars c4Order := by
  intro h
  rw [c4Order_chunks] at h
  rw [show ([c4P1, c4P2, c4S1] : List (List Char)).flatten =
      c4P1 ++ (c4P2 ++ (c4S1 ++ [])) from rfl, List.append_nil] at h
  rw [nwChars_eq_self_of_all (by
    intro c hc
    rcases List.mem_append.mp hc with hc | hc
    · exact c4P1_nonws c hc
    · rcases List.mem_append.mp hc with hc | hc
      · exact c4P2_nonws c hc
      · exact c4S1_nonws c hc)] at h
  rw [show nwChars c4Order = c4S1 ++ (c4P1 ++ c4P2) from by
    rw [show c4Order = c4S1 ++ (' ' :: (c4P1 ++ (' ' :: c4P2))) from by
      unfold c4Order c4S2 c4T2 c4S1 c4P1 c4P2
      simp [-List.reduceReplicate]]
    rw [nwChars_append, nwChars_ws_cons (show wsChar ' ' = true from rfl),
      nwChars_append, nwChars_ws_cons (show wsChar ' ' = true from rfl)]
    rw [nwChars_eq_self_of_all c4S1_nonws, nwChars_eq_self_of_all c4P1_nonws,
      nwChars_eq_self_of_all c4P2_nonws]] at h
  have heq : c4P1 ++ (c4P2 ++ c4S1) = c4S1 ++ (c4P1 ++ c4P2) := by
    refine h.eq_of_length ?_
    rw [List.length_append, List.length_append, List.length_append,
      List.length_append, c4P1_len, c4P2_len, c4S1_len]
  have hh := congrArg List.head? heq
  rw [show c4P1 ++ (c4P2 ++ c4S1) = 'c' ::
      ((List.replicate 199 'c' ++ [',']) ++ (c4P2 ++ c4S1)) from by
    rw [show c4P1 = 'c' :: (List.replicate 199 'c' ++ [',']) from by
      unfold c4P1
      rw [show (200 : Nat) = 199 + 1 from rfl, List.replicate_succ,
        List.cons_append]]
    rw [List.cons_append]] at hh
  rw [show c4S1 ++ (c4P1 ++ c4P2) = 'b' ::
      ((List.replicate 119 'b' ++ ['.']) ++ (c4P1 ++ c4P2)) from by
    rw [show c4S1 = 'b' :: (List.replicate 119 'b' ++ ['.']) from by
      unfold c4S1
      rw [show (120 : Nat) = 119 + 1 from rfl, List.replicate_succ,
        List.cons_append]]
    rw [List.cons_append]] at hh
  rw [List.head?_cons, List.head?_cons] at hh
  exact absurd hh (by decide)

/-- C4 (counterexample): the ceiling and the ordering both fail.  A
single 3801-character word comes back as one 3801-character chunk, over
the 3800 ceiling; and for a paragraph whose second sentence is oversized,
the clause chunks of that second sentence are emitted before the pending
first sentence, so the chunks are out of source order (their concatenated
non-whitespace text is not a subsequence of the input's). -/
theorem chunk_bounds_counterexample :
    (chunkText c4A = [c4A] ∧ 3800 < c4A.length) ∧
    (chunkText c4Order = [c4P1, c4P2, c4S1] ∧
      ¬ nwChars (chunkText c4Order).flatten <+ nwChars c4Order) :=
  ⟨⟨c4A_chunks, by rw [c4A_len]; omega⟩,
    ⟨c4Order_chunks, c4Order_not_sublist⟩⟩

end Speasy
